import Mathlib

/-!
Verification of the `keploy/jsondiff` Go package (`jsondiff.go`) against its
natural-language specification.  The Go functions are shallowly embedded as
executable Lean definitions: Go strings become Lean `String`s (character
lists), Go slices become `List`s, Go `map[string]T` values become association
lists whose list order models the (arbitrary) Go map iteration order, and the
JSON values produced by `encoding/json.Unmarshal` become the inductive type
`JVal`.  Machine integers stay in `Nat`/`Int` (no overflow is reachable:
all Go ints here are list lengths and indices).
-/

namespace JsonDiff

/-- Splits a character list at every occurrence of the separator character,
modelling Go `strings.Split` with a one-character separator
(`strings.Split("", sep)` yields one empty piece). -/
def splitCh (sep : Char) : List Char → List (List Char)
  | [] => [[]]
  | c :: cs =>
    let rest := splitCh sep cs
    if c = sep then [] :: rest
    else
      match rest with
      | [] => [[c]]
      | p :: ps => (c :: p) :: ps

theorem splitCh_ne_nil (sep : Char) (l : List Char) : splitCh sep l ≠ [] := by
  induction l with
  | nil => simp [splitCh]
  | cons c cs ih =>
    simp only [splitCh]
    split
    · simp
    · match h : splitCh sep cs with
      | [] => exact absurd h ih
      | p :: ps => simp

/-- A list with no occurrence of the separator splits into itself alone. -/
theorem splitCh_eq_single (sep : Char) (l : List Char) (h : ∀ c ∈ l, c ≠ sep) :
    splitCh sep l = [l] := by
  induction l with
  | nil => rfl
  | cons c cs ih =>
    have hc : c ≠ sep := h c (List.mem_cons_self c cs)
    have hrest : splitCh sep cs = [cs] := ih fun x hx => h x (List.mem_cons_of_mem c hx)
    simp [splitCh, hc, hrest]

/-- Go `strings.Split(s, " ")`: the space-separated words of a string. -/
def wordsOf (s : String) : List String :=
  (splitCh ' ' s.data).map fun l => ⟨l⟩

/-- `Range` from `jsondiff.go`: a highlight span with a start and end index.
The fields are Go `int`s, so they are embedded as `Int`
(the code can produce an `End` of `-1`). -/
structure Range where
  Start : Int
  End : Int
deriving Repr, DecidableEq

/-- The index-walking loop of Go `diffArrayRange` (`jsondiff.go:891-916`):
walks word indices `i, i+1, ...` for `n` more steps, reading each side with
an empty-string default, and records the index on each side that is in
bounds whenever the two words differ.  The `Bool` is the `diff` flag. -/
def darLoop (w1 w2 : List String) : Nat → Nat → List Nat × List Nat × Bool
  | _, 0 => ([], [], false)
  | i, n + 1 =>
    let word1 := w1.getD i ""
    let word2 := w2.getD i ""
    let rest := darLoop w1 w2 (i + 1) n
    if word1 ≠ word2 then
      ((if i < w1.length then i :: rest.1 else rest.1),
       (if i < w2.length then i :: rest.2.1 else rest.2.1),
       true)
    else rest

/-- Go `diffArrayRange` (`jsondiff.go:877-932`): splits both strings on
single spaces, walks indices up to the longer length recording differing
in-bounds indices per side, then appends every excess index of the longer
side (a second time if the loop already recorded it). -/
def diffArrayRange (s1 s2 : String) : List Nat × List Nat × Bool :=
  let words1 := wordsOf s1
  let words2 := wordsOf s2
  let maxLen := max words1.length words2.length
  let main := darLoop words1 words2 0 maxLen
  let ind1 :=
    if words2.length < words1.length then
      main.1 ++ List.range' words2.length (words1.length - words2.length)
    else main.1
  let ind2 :=
    if words1.length < words2.length then
      main.2.1 ++ List.range' words1.length (words2.length - words1.length)
    else main.2.1
  (ind1, ind2, main.2.2)

/-- The index-walking loop of Go `diffIndexRange` (`jsondiff.go:845-869`):
carries the running character offset `st` of the current word in the first
string and emits `Range{Start: st, End: st + len(word1) - 1}` at each
differing index. -/
def dirLoop (w1 w2 : List String) : Nat → Nat → Nat → List Range × Bool
  | _, _, 0 => ([], false)
  | i, st, n + 1 =>
    let word1 := w1.getD i ""
    let word2 := w2.getD i ""
    let rest := dirLoop w1 w2 (i + 1) (st + word1.length + 1) n
    if word1 ≠ word2 then
      (⟨(st : Int), (st : Int) + word1.length - 1⟩ :: rest.1, true)
    else rest

/-- Go `diffIndexRange` (`jsondiff.go:828-873`): character-offset ranges of
the differing words between two space-split strings. -/
def diffIndexRange (s1 s2 : String) : List Range × Bool :=
  let words1 := wordsOf s1
  let words2 := wordsOf s2
  dirLoop words1 words2 0 0 (max words1.length words2.length)

/-- A JSON scalar as decoded by Go `encoding/json`. -/
inductive JPrim where
  | null
  | bool (b : Bool)
  | num (lit : String)
  | str (s : String)
deriving Repr, DecidableEq

/-- A JSON value as decoded by Go `encoding/json.Unmarshal` into
`interface\x7b\x7d`.  `num` carries the decimal rendering of the decoded
`float64` (the inputs used concretely render the same way before and
after decoding).  An `obj` is the decoded `map[string]interface\x7b\x7d`:
the association-list order models the (arbitrary) Go map iteration
order, and keys are unique. -/
inductive JVal where
  | prim (p : JPrim)
  | arr (elems : List JVal)
  | obj (fields : List (String × JVal))

/-- Go map lookup `b[key]` on the association-list model of a map. -/
def lookupJ (k : String) : List (String × JVal) → Option JVal
  | [] => none
  | (k2, v) :: rest => if k2 = k then some v else lookupJ k rest

theorem lookupJ_sizeOf {k : String} :
    ∀ {l : List (String × JVal)} {v : JVal}, lookupJ k l = some v → sizeOf v < sizeOf l := by
  intro l
  induction l with
  | nil => intro v h; simp [lookupJ] at h
  | cons kv rest ih =>
    intro v h
    obtain ⟨k2, w⟩ := kv
    simp only [lookupJ] at h
    split at h
    · cases h
      simp only [List.cons.sizeOf_spec, Prod.mk.sizeOf_spec]
      omega
    · have := ih h
      simp only [List.cons.sizeOf_spec]
      omega

/-- `github.com/fatih/color`: `color.New(attr).SprintFunc()` with colors
enabled wraps its argument in the SGR escape sequence for `attr` and a
reset.  Attributes are embedded by their numeric code: `FgRed` is `"31"`,
`FgGreen` `"32"`, `FgYellow` `"33"`, `FgHiRed` `"91"`, `FgHiGreen` `"92"`. -/
def ansi (code : String) (s : String) : String :=
  "\x1b[" ++ code ++ "m" ++ s ++ "\x1b[0m"

/-- Go `len(s)` for the strings reaching this package (character count;
identical to the byte count on the ASCII data the package processes). -/
def strLen (s : String) : Nat := s.data.length

/-- Go `s[n:]` (total where Go would panic on a too-short string). -/
def strDrop (n : Nat) (s : String) : String := ⟨s.data.drop n⟩

/-- Go `s[:n]`. -/
def strTake (n : Nat) (s : String) : String := ⟨s.data.take n⟩

/-- Go `s[:len(s)-1]`. -/
def strDropLast (s : String) : String := ⟨s.data.take (s.data.length - 1)⟩

/-- Whitespace recognized by Go `strings.TrimSpace` on the ASCII data
this package handles. -/
def isSpaceA (c : Char) : Bool := c == ' ' || c == '\t' || c == '\n' || c == '\r'

/-- Go `strings.TrimSpace`. -/
def trimSpace (s : String) : String :=
  ⟨((s.data.dropWhile isSpaceA).reverse.dropWhile isSpaceA).reverse⟩

/-- Go `strings.SplitN(s, ":", 2)`: one or two pieces cut at the first colon. -/
def splitN2Colon (s : String) : List String :=
  match s.data.findIdx? (fun c => c == ':') with
  | none => [s]
  | some i => [⟨s.data.take i⟩, ⟨s.data.drop (i + 1)⟩]

/-- Substring test on character lists (Go `strings.Contains`). -/
def containsSub : List Char → List Char → Bool
  | hay, needle =>
    if needle.isPrefixOf hay then true
    else
      match hay with
      | [] => false
      | _ :: t => containsSub t needle

/-- Go `strings.Contains(s, sub)`. -/
def strContainsSub (s sub : String) : Bool := containsSub s.data sub.data

/-- `strings.Replace(s, old, new, 1)` on character lists: replaces the
first occurrence of `old` (an empty `old` is treated as a prefix of
everything, as in Go, where it inserts `new` at the start). -/
def replaceFirstL (old new : List Char) : List Char → List Char
  | [] => if old.isPrefixOf ([] : List Char) then new else []
  | c :: t =>
    if old.isPrefixOf (c :: t) then new ++ (c :: t).drop old.length
    else c :: replaceFirstL old new t

/-- Go `strings.Replace(s, old, new, 1)`. -/
def strReplaceFirst (s old new : String) : String := ⟨replaceFirstL old.data new.data s.data⟩

/-- Go `strings.Split(s, "\n")`. -/
def splitLines (s : String) : List String := (splitCh '\n' s.data).map fun l => ⟨l⟩

/-- Go `strings.Join(lines, "\n")`. -/
def joinLines : List String → String
  | [] => ""
  | [x] => x
  | x :: y :: rest => x ++ "\n" ++ joinLines (y :: rest)

/-- First characters of two strings agree (used by `insertEmptyLines`,
whose Go source indexes `lines[i+1][0]` only on lines known nonempty). -/
def sameFirstChar (a b : String) : Bool :=
  match a.data, b.data with
  | c :: _, d :: _ => c == d
  | _, _ => false

/-- Go `insertEmptyLines` (`jsondiff.go:597-612`): inserts an empty line
between consecutive lines that start with the same symbol. -/
def insertEmptyLines : List String → List String
  | [] => []
  | [x] => [x]
  | x :: y :: rest =>
    if x ≠ "" && sameFirstChar x y then x :: "" :: insertEmptyLines (y :: rest)
    else x :: insertEmptyLines (y :: rest)

/-- Go `contains` (`jsondiff.go:814-824`): slice membership. -/
def containsIdx (slice : List Nat) (element : Nat) : Bool :=
  slice.any fun e => e == element

/-- Go `isControlCharacter` (`jsondiff.go:537-539`). -/
def isControlCharacter (c : Char) : Bool := c < ' '

/-- Go `MAX_LINE_LENGTH` (`jsondiff.go:541`). -/
def MAX_LINE_LENGTH : Nat := 50

/-- The per-character state of Go `breakLines` (`jsondiff.go:546-592`):
the completed output lines (each emitted followed by a newline), the
current line under construction, whether the scan is inside an ANSI
escape sequence, the pending escape-sequence characters, and the count
of visible characters on the current line. -/
structure BLState where
  out : List (List Char)
  cur : List Char
  inSeq : Bool
  seqBuf : List Char
  lineLen : Nat

/-- One iteration of the character loop of Go `breakLines`.  Mirrors the
source exactly: an ESC both sets the in-sequence flag and is processed
by the in-sequence branch in the same iteration; a sequence is flushed
into the current line atomically at `m`; control characters join the
line uncounted; a visible character arriving with a full budget flushes
the line and is itself dropped (as in the source, whose width branch
does not write the character). -/
def blStep (st : BLState) (c : Char) : BLState :=
  if st.inSeq || c == '\x1b' then
    let buf := st.seqBuf ++ [c]
    if c == 'm' then { st with inSeq := false, seqBuf := [], cur := st.cur ++ buf }
    else { st with inSeq := true, seqBuf := buf }
  else if isControlCharacter c && c != '\n' then
    { st with cur := st.cur ++ [c] }
  else if st.lineLen ≥ MAX_LINE_LENGTH then
    { st with out := st.out ++ [st.cur], cur := [], lineLen := 0 }
  else if c == '\n' then
    { st with out := st.out ++ [st.cur], cur := [], lineLen := 0 }
  else
    { st with cur := st.cur ++ [c], lineLen := st.lineLen + 1 }

/-- The physical lines of the string Go `breakLines` builds: every
completed line is written followed by a newline and the in-progress line
ends the output, so the output's lines are the completed lines plus the
final in-progress one (a trailing newline in the built string reads back
as a final empty line). -/
def breakLinesList (input : List Char) : List (List Char) :=
  let st := input.foldl blStep ⟨[], [], false, [], 0⟩
  st.out ++ [st.cur]

/-- Newline-joining of character-list lines (the string whose lines they are). -/
def joinNl : List (List Char) → List Char
  | [] => []
  | [l] => l
  | l :: l2 :: rest => l ++ '\n' :: joinNl (l2 :: rest)

/-- Go `breakLines` (`jsondiff.go:546-592`): wraps a string to at most
`MAX_LINE_LENGTH` visible characters per line, keeping ANSI escape
sequences intact and uncounted. -/
def breakLines (input : String) : String := ⟨joinNl (breakLinesList input.data)⟩

/-- The character loop of Go `breakWithColor` (`jsondiff.go:502-526`):
paints every character whose index falls in a highlight range
(`Start ≤ i < End`), counts every input character toward the line
budget, and breaks after `MAX_LINE_LENGTH` characters. -/
def bwcLoop (paint : String → String) (ranges : List Range) :
    List Char → Nat → Nat → String
  | [], _, lineLen => if lineLen > 0 then "\n" else ""
  | ch :: rest, i, lineLen =>
    let piece :=
      if ranges.any (fun r => decide (r.Start ≤ (i : Int)) && decide ((i : Int) < r.End)) then
        paint (String.singleton ch)
      else String.singleton ch
    let lineLen2 := lineLen + 1
    if lineLen2 == MAX_LINE_LENGTH then piece ++ "\n" ++ bwcLoop paint ranges rest (i + 1) 0
    else piece ++ bwcLoop paint ranges rest (i + 1) lineLen2

/-- Go `breakWithColor` (`jsondiff.go:490-534`).  A `none` color is the
Go `nil` attribute, whose paint function returns the empty string. -/
def breakWithColor (input : String) (c : Option String) (highlightRanges : List Range) : String :=
  let paint : String → String :=
    match c with
    | some code => ansi code
    | none => fun _ => ""
  bwcLoop paint highlightRanges input.data 0 0

/-- Go `breakSliceWithColor` (`jsondiff.go:792-810`): recolors the words
at the given offsets, appending a space after every word. -/
def breakSliceWithColor (s : String) (c : String) (offsets : List Nat) : String :=
  String.join ((wordsOf s).enum.map fun iw =>
    if containsIdx offsets iw.1 then ansi c iw.2 ++ " " else iw.2 ++ " ")

/-- Insertion of a string into a sorted list (ascending, as Go `fmt` and
`encoding/json` order map keys). -/
def insertSorted (x : String) : List String → List String
  | [] => [x]
  | y :: ys => if x < y then x :: y :: ys else y :: insertSorted x ys

/-- Ascending sort of strings. -/
def sortStrs : List String → List String
  | [] => []
  | x :: xs => insertSorted x (sortStrs xs)

/-- Space-joining of already-rendered pieces. -/
def joinSpace : List String → String
  | [] => ""
  | [x] => x
  | x :: y :: rest => x ++ " " ++ joinSpace (y :: rest)

end JsonDiff

namespace JsonDiff

mutual

/-- Go `fmt.Sprint` of a decoded JSON value (the `%v` rendering):
scalars by their Go default format (`nil` is `<nil>`, strings are bare),
slices as space-separated elements in brackets, maps as
`map[k1:v1 k2:v2]` with entries in sorted order (the `key:value`
renderings are sorted; for the keys reaching this code that matches
`fmt`'s sort-by-key). -/
def goSprint : JVal → String
  | .prim .null => "<nil>"
  | .prim (.bool b) => cond b "true" "false"
  | .prim (.num lit) => lit
  | .prim (.str s) => s
  | .arr l => "[" ++ joinSpace (goSprintArr l) ++ "]"
  | .obj l => "map[" ++ joinSpace (sortStrs (goSprintObj l)) ++ "]"

def goSprintArr : List JVal → List String
  | [] => []
  | x :: xs => goSprint x :: goSprintArr xs

def goSprintObj : List (String × JVal) → List String
  | [] => []
  | (k, v) :: xs => (k ++ ":" ++ goSprint v) :: goSprintObj xs

end

/-- One hexadecimal digit (lowercase), for `\u00XX` escapes. -/
def hexDigit (n : Nat) : Char :=
  if n < 10 then Char.ofNat (48 + n) else Char.ofNat (87 + n)

/-- Go `encoding/json` string quoting: quotes, backslashes, newline,
carriage return and tab get two-character escapes, other control
characters and the HTML-escaped `<`, `>`, `&` become `\u00XX`. -/
def mQuote (s : String) : String :=
  "\"" ++ String.join (s.data.map fun c =>
    if c == '"' then "\\\""
    else if c == '\\' then "\\\\"
    else if c == '\n' then "\\n"
    else if c == '\r' then "\\r"
    else if c == '\t' then "\\t"
    else if c == '<' || c == '>' || c == '&' || c < ' ' then
      "\\u00" ++ String.singleton (hexDigit (c.toNat / 16)) ++ String.singleton (hexDigit (c.toNat % 16))
    else String.singleton c) ++ "\""

/-- `d` levels of the two-space indent `json.MarshalIndent(v, "", "  ")`
uses (its prefix argument is empty at every call site in this package). -/
def indentStr (d : Nat) : String := String.join (List.replicate d "  ")

/-- Insertion into a list of `(key, rendered)` pairs sorted by key. -/
def insertPairSorted (x : String × String) : List (String × String) → List (String × String)
  | [] => [x]
  | y :: ys => if x.1 < y.1 then x :: y :: ys else y :: insertPairSorted x ys

/-- Sort `(key, rendered)` pairs by key, as `encoding/json` orders map keys. -/
def sortPairsByKey : List (String × String) → List (String × String)
  | [] => []
  | x :: xs => insertPairSorted x (sortPairsByKey xs)

/-- Comma-newline joining of the rendered entries of a JSON object or array. -/
def joinCommaNl : List String → String
  | [] => ""
  | [x] => x
  | x :: y :: rest => x ++ ",\n" ++ joinCommaNl (y :: rest)

mutual

/-- Go `json.MarshalIndent(v, "", "  ")` at nesting depth `d`:
scalars inline, containers with each entry on its own line at the next
indent level, object keys in sorted order. -/
def mRender : JVal → Nat → String
  | .prim .null, _ => "null"
  | .prim (.bool b), _ => cond b "true" "false"
  | .prim (.num lit), _ => lit
  | .prim (.str s), _ => mQuote s
  | .arr l, d =>
    if l.isEmpty then "[]"
    else "[\n" ++ joinCommaNl (mRenderArr l (d + 1)) ++ "\n" ++ indentStr d ++ "]"
  | .obj l, d =>
    if l.isEmpty then "\x7b\x7d"
    else
      "\x7b\n" ++ joinCommaNl ((sortPairsByKey (mRenderObj l (d + 1))).map Prod.snd)
        ++ "\n" ++ indentStr d ++ "\x7d"

def mRenderArr : List JVal → Nat → List String
  | [], _ => []
  | x :: xs, d => (indentStr d ++ mRender x d) :: mRenderArr xs d

def mRenderObj : List (String × JVal) → Nat → List (String × String)
  | [], _ => []
  | (k, v) :: xs, d =>
    (k, indentStr d ++ mQuote k ++ ": " ++ mRender v d) :: mRenderObj xs d

end

/-- Go `serialize` (`jsondiff.go:256-262`): `json.MarshalIndent` with a
two-space indent (serialization of these values never errors). -/
def serialize (value : JVal) : String := mRender value 0

/-- Go `reflect.DeepEqual(value, "")`: the decoded value is the empty
Go string. -/
def isEmptyGoStr : JVal → Bool
  | .prim (.str s) => s == ""
  | _ => false

/-- Go `writeKeyValuePair` (`jsondiff.go:160-173`): appends
`indent"key": value,\n`, colorizing the value when a color function is
given and the value is not the empty Go string
(`reflect.DeepEqual(value, "")`). -/
def writeKeyValuePair (key : String) (value : JVal) (indent : String)
    (colorFunc : Option (String → String)) : String :=
  let valueStr := serialize value
  match colorFunc with
  | some f =>
    if !(isEmptyGoStr value) then
      indent ++ "\"" ++ key ++ "\": " ++ f valueStr ++ ",\n"
    else
      indent ++ "\"" ++ key ++ "\": " ++ valueStr ++ ",\n"
  | none => indent ++ "\"" ++ key ++ "\": " ++ valueStr ++ ",\n"

/-- Go `reflect.DeepEqual(val1, val2)` when `val1` is a decoded scalar:
true exactly when `val2` is the same scalar. -/
def primDeepEqual (p : JPrim) : JVal → Bool
  | .prim q => p == q
  | _ => false

mutual

/-- Go `reflect.DeepEqual` on two decoded JSON values: scalars by value,
slices element-wise with equal lengths, maps by key set and deep-equal
values (keys are unique in decoded maps, so the length check plus
per-key lookup is exactly map equality). -/
def deepEqualJ : JVal → JVal → Bool
  | .prim p, .prim q => p == q
  | .arr l1, .arr l2 => deepEqualArr l1 l2
  | .obj l1, .obj l2 => l1.length == l2.length && deepEqualObj l1 l2
  | _, _ => false
termination_by v1 v2 => sizeOf v1 + sizeOf v2

def deepEqualArr : List JVal → List JVal → Bool
  | [], [] => true
  | _ :: _, [] => false
  | [], _ :: _ => false
  | x :: xs, y :: ys => deepEqualJ x y && deepEqualArr xs ys
termination_by l1 l2 => sizeOf l1 + sizeOf l2

def deepEqualObj : List (String × JVal) → List (String × JVal) → Bool
  | [], _ => true
  | (k, v) :: rest, l2 =>
    (match h : lookupJ k l2 with
     | some w => deepEqualJ v w
     | none => false) && deepEqualObj rest l2
termination_by l1 l2 => sizeOf l1 + sizeOf l2
decreasing_by
  · have := lookupJ_sizeOf h
    simp only [List.cons.sizeOf_spec, Prod.mk.sizeOf_spec]
    omega
  · simp only [List.cons.sizeOf_spec, Prod.mk.sizeOf_spec]
    omega

end

/-- The second pass of Go `compareAndColorizeMaps`
(`jsondiff.go:745-749`): keys of the second map absent from the first,
written to the actual side colored as added. -/
def ccmSecondPass (b a : List (String × JVal)) (indent : String)
    (green : String → String) : String :=
  String.join (b.map fun kv =>
    if (lookupJ kv.1 a).isNone then
      writeKeyValuePair (green kv.1) kv.2 (indent ++ "  ") (some green)
    else "")

mutual

/-- Executable structural size of a decoded JSON value, used to compute
the fuel bounds of the comparison nest below. -/
def jsize : JVal → Nat
  | .prim _ => 1
  | .arr l => 1 + jsizeArr l
  | .obj l => 1 + jsizeObj l

def jsizeArr : List JVal → Nat
  | [] => 0
  | x :: xs => 1 + jsize x + jsizeArr xs

def jsizeObj : List (String × JVal) → Nat
  | [] => 0
  | (_, v) :: xs => 1 + jsize v + jsizeObj xs

end

mutual

/-- The body of Go `compareAndColorizeMaps` (`jsondiff.go:727-756`),
with a fuel argument that makes the mutual recursion structural (and so
kernel-computable); every recursive call uses one unit.  The Go-named
wrappers below pass fuel strictly above the recursion depth, so the
zero-fuel branch is unreachable from them (`fuelNest_eq`). -/
def ccmFuel : Nat → List (String × JVal) → List (String × JVal) → String →
    (String → String) → (String → String) → String × String
  | 0, _, _, _, _, _ => ("", "")
  | fuel + 1, a, b, indent, red, green =>
    let fp := fpFuel fuel a b indent red green
    ("\x7b\n" ++ fp.1 ++ indent ++ "\x7d",
     "\x7b\n" ++ fp.2 ++ ccmSecondPass b a indent green ++ indent ++ "\x7d")

/-- The first pass of Go `compareAndColorizeMaps` (`jsondiff.go:733-742`),
fueled: a key absent from the second map is written removed-colored to
the expected side only; a shared key dispatches to `compare`. -/
def fpFuel : Nat → List (String × JVal) → List (String × JVal) → String →
    (String → String) → (String → String) → String × String
  | 0, _, _, _, _, _ => ("", "")
  | _ + 1, [], _, _, _, _ => ("", "")
  | fuel + 1, (key, aValue) :: rest, b, indent, red, green =>
    let tail := fpFuel fuel rest b indent red green
    match lookupJ key b with
    | none =>
      (writeKeyValuePair (red key) aValue (indent ++ "  ") (some red) ++ tail.1, tail.2)
    | some bValue =>
      let c := cmpFuel fuel key aValue bValue (indent ++ "  ") red green
      (c.1 ++ tail.1, c.2 ++ tail.2)

/-- The body of Go `compare` (`jsondiff.go:272-331`), fueled: dispatch on
the first value's shape — matching containers recurse, mismatched shapes
write both sides as independently colored key/value pairs, scalars
word-diff when unequal and print uncolored when deep-equal. -/
def cmpFuel : Nat → String → JVal → JVal → String →
    (String → String) → (String → String) → String × String
  | 0, _, _, _, _, _, _ => ("", "")
  | fuel + 1, key, val1, val2, indent, red, green =>
    match val1, val2 with
    | JVal.obj o1, JVal.obj o2 =>
      let r := ccmFuel fuel o1 o2 (indent ++ "  ") red green
      (indent ++ "\"" ++ key ++ "\": " ++ r.1 ++ "\n",
       indent ++ "\"" ++ key ++ "\": " ++ r.2 ++ "\n")
    | JVal.obj o1, v2 =>
      (writeKeyValuePair key (JVal.obj o1) indent (some red),
       writeKeyValuePair key v2 indent (some green))
    | JVal.arr a1, JVal.arr a2 =>
      let r := ccsFuel fuel a1 a2 (indent ++ "  ") red green
      (indent ++ "\"" ++ key ++ "\": [\n" ++ r.1 ++ "\n" ++ indent ++ "]\n",
       indent ++ "\"" ++ key ++ "\": [\n" ++ r.2 ++ "\n" ++ indent ++ "]\n")
    | JVal.arr a1, v2 =>
      (writeKeyValuePair key (JVal.arr a1) indent (some red),
       writeKeyValuePair key v2 indent (some green))
    | JVal.prim p, v2 =>
      if !(primDeepEqual p v2) then
        let val1Str := serialize (JVal.prim p)
        let val2Str := serialize v2
        let off := diffArrayRange val1Str val2Str
        let expectDiff := breakSliceWithColor val1Str "31" off.1
        let actualDiff := breakSliceWithColor val2Str "32" off.2.1
        (breakLines (indent ++ "\"" ++ key ++ "\": " ++ expectDiff ++ ",\n"),
         breakLines (indent ++ "\"" ++ key ++ "\": " ++ actualDiff ++ ",\n"))
      else
        let valStr := serialize (JVal.prim p)
        (indent ++ "\"" ++ key ++ "\": " ++ valStr ++ ",\n",
         indent ++ "\"" ++ key ++ "\": " ++ valStr ++ ",\n")

/-- The body of Go `compareAndColorizeSlices` (`jsondiff.go:181-253`),
fueled: positional walk of two slices from index 0. -/
def ccsFuel : Nat → List JVal → List JVal → String →
    (String → String) → (String → String) → String × String
  | 0, _, _, _, _, _ => ("", "")
  | fuel + 1, a, b, indent, red, green => ccsAuxFuel fuel a b 0 indent red green

/-- The index loop of Go `compareAndColorizeSlices`, fueled: the element
pair at the current index (when both exist) dispatches on shape exactly
as the source type switch; a one-sided element is written serialized
and colored to its own side only. -/
def ccsAuxFuel : Nat → List JVal → List JVal → Nat → String →
    (String → String) → (String → String) → String × String
  | 0, _, _, _, _, _, _ => ("", "")
  | _ + 1, [], [], _, _, _, _ => ("", "")
  | fuel + 1, x :: xs, [], i, indent, red, green =>
    let rest := ccsAuxFuel fuel xs [] (i + 1) indent red green
    (indent ++ "[" ++ toString i ++ "]: " ++ red (serialize x) ++ "\n" ++ rest.1, rest.2)
  | fuel + 1, [], y :: ys, i, indent, red, green =>
    let rest := ccsAuxFuel fuel [] ys (i + 1) indent red green
    (rest.1, indent ++ "[" ++ toString i ++ "]: " ++ green (serialize y) ++ "\n" ++ rest.2)
  | fuel + 1, x :: xs, y :: ys, i, indent, red, green =>
    let head : String × String :=
      match x, y with
      | JVal.obj o1, JVal.obj o2 =>
        let r := ccmFuel fuel o1 o2 (indent ++ "  ") red green
        (indent ++ "[" ++ toString i ++ "]: " ++ r.1 ++ "\n",
         indent ++ "[" ++ toString i ++ "]: " ++ r.2 ++ "\n")
      | JVal.obj _, _ =>
        (indent ++ "[" ++ toString i ++ "]: " ++ red ("%v" ++ goSprint x) ++ "\n",
         indent ++ "[" ++ toString i ++ "]: " ++ green ("%v" ++ goSprint y) ++ "\n")
      | JVal.arr a1, JVal.arr a2 =>
        let r := ccsFuel fuel a1 a2 (indent ++ "  ") red green
        (indent ++ "[" ++ toString i ++ "]: [\n" ++ r.1 ++ indent ++ "]\n",
         indent ++ "[" ++ toString i ++ "]: [\n" ++ r.2 ++ indent ++ "]\n")
      | JVal.arr _, _ =>
        (indent ++ "[" ++ toString i ++ "]: " ++ red ("%v" ++ goSprint x) ++ "\n",
         indent ++ "[" ++ toString i ++ "]: " ++ green ("%v" ++ goSprint y) ++ "\n")
      | JVal.prim p, _ =>
        if !(primDeepEqual p y) then
          (indent ++ "[" ++ toString i ++ "]: " ++ red (goSprint x) ++ "\n",
           indent ++ "[" ++ toString i ++ "]: " ++ green (goSprint y) ++ "\n")
        else
          (indent ++ "[" ++ toString i ++ "]: " ++ goSprint x ++ "\n",
           indent ++ "[" ++ toString i ++ "]: " ++ goSprint y ++ "\n")
    let rest := ccsAuxFuel fuel xs ys (i + 1) indent red green
    (head.1 ++ rest.1, head.2 ++ rest.2)

end

/-- Go `compareAndColorizeMaps` (`jsondiff.go:727-756`): braces around a
first pass over the first map's entries (in iteration order) and, on the
actual side, a second pass adding the second map's extra keys.  The fuel
strictly bounds the recursion depth (`fuelNest_eq`). -/
def compareAndColorizeMaps (a b : List (String × JVal)) (indent : String)
    (red green : String → String) : String × String :=
  ccmFuel (jsizeObj a + jsizeObj b + 2) a b indent red green

/-- The first pass of Go `compareAndColorizeMaps` (`jsondiff.go:733-742`). -/
def ccmFirstPass (a b : List (String × JVal)) (indent : String)
    (red green : String → String) : String × String :=
  fpFuel (jsizeObj a + jsizeObj b + 1) a b indent red green

/-- Go `compare` (`jsondiff.go:272-331`). -/
def compare (key : String) (val1 val2 : JVal) (indent : String)
    (red green : String → String) : String × String :=
  cmpFuel (jsize val1 + jsize val2 + 1) key val1 val2 indent red green

/-- Go `compareAndColorizeSlices` (`jsondiff.go:181-253`). -/
def compareAndColorizeSlices (a b : List JVal) (indent : String)
    (red green : String → String) : String × String :=
  ccsFuel (jsizeArr a + jsizeArr b + 2) a b indent red green

/-- The index loop of Go `compareAndColorizeSlices`. -/
def ccsAux (a b : List JVal) (i : Nat) (indent : String)
    (red green : String → String) : String × String :=
  ccsAuxFuel (jsizeArr a + jsizeArr b + 1) a b i indent red green

/-- Every decoded value has positive size. -/
theorem jsize_pos : ∀ v : JVal, 1 ≤ jsize v := by
  intro v
  cases v <;> simp [jsize]

/-- A value found by map lookup is smaller than its map. -/
theorem lookupJ_jsize {k : String} :
    ∀ {l : List (String × JVal)} {v : JVal}, lookupJ k l = some v → jsize v < jsizeObj l := by
  intro l
  induction l with
  | nil => intro v h; simp [lookupJ] at h
  | cons kv rest ih =>
    intro v h
    obtain ⟨k2, w⟩ := kv
    simp only [lookupJ] at h
    split at h
    · cases h
      show jsize v < 1 + jsize v + jsizeObj rest
      omega
    · have := ih h
      show jsize v < 1 + jsize w + jsizeObj rest
      omega

/-- Any fuel strictly above the recursion measure computes the wrapper:
the fueled bodies are exact mirrors of the Go functions, and the
wrappers (which pass measure-plus-one fuel) never reach the zero-fuel
branch. -/
theorem fuelNest_eq : ∀ fuel : Nat,
    (∀ a b indent red green, jsizeObj a + jsizeObj b + 1 < fuel →
      ccmFuel fuel a b indent red green = compareAndColorizeMaps a b indent red green)
  ∧ (∀ a b indent red green, jsizeObj a + jsizeObj b < fuel →
      fpFuel fuel a b indent red green = ccmFirstPass a b indent red green)
  ∧ (∀ key v1 v2 indent red green, jsize v1 + jsize v2 < fuel →
      cmpFuel fuel key v1 v2 indent red green = compare key v1 v2 indent red green)
  ∧ (∀ a b indent red green, jsizeArr a + jsizeArr b + 1 < fuel →
      ccsFuel fuel a b indent red green = compareAndColorizeSlices a b indent red green)
  ∧ (∀ a b i indent red green, jsizeArr a + jsizeArr b < fuel →
      ccsAuxFuel fuel a b i indent red green = ccsAux a b i indent red green) := by
  intro fuel
  induction fuel using Nat.strong_induction_on with
  | _ fuel IH =>
  refine ⟨?_, ?_, ?_, ?_, ?_⟩
  · intro a b indent red green h
    obtain ⟨f, rfl⟩ : ∃ f, fuel = f + 1 := ⟨fuel - 1, by omega⟩
    unfold compareAndColorizeMaps
    simp only [ccmFuel]
    rw [(IH f (by omega)).2.1 a b indent red green (by omega),
      (IH (jsizeObj a + jsizeObj b + 1) (by omega)).2.1 a b indent red green (by omega)]
  · intro a b indent red green h
    obtain ⟨f, rfl⟩ : ∃ f, fuel = f + 1 := ⟨fuel - 1, by omega⟩
    match a with
    | [] =>
      unfold ccmFirstPass
      simp only [fpFuel]
    | (key, aValue) :: rest =>
      have hsz : jsizeObj ((key, aValue) :: rest) = 1 + jsize aValue + jsizeObj rest := rfl
      have hpos := jsize_pos aValue
      unfold ccmFirstPass
      simp only [fpFuel]
      rcases h2 : lookupJ key b with _ | bValue
      · simp only [h2]
        rw [(IH f (by omega)).2.1 rest b indent red green (by omega),
          (IH (jsizeObj ((key, aValue) :: rest) + jsizeObj b) (by omega)).2.1 rest b
            indent red green (by omega)]
      · have hb := lookupJ_jsize h2
        simp only [h2]
        rw [(IH f (by omega)).2.1 rest b indent red green (by omega),
          (IH (jsizeObj ((key, aValue) :: rest) + jsizeObj b) (by omega)).2.1 rest b
            indent red green (by omega),
          (IH f (by omega)).2.2.1 key aValue bValue (indent ++ "  ") red green (by omega),
          (IH (jsizeObj ((key, aValue) :: rest) + jsizeObj b) (by omega)).2.2.1 key aValue
            bValue (indent ++ "  ") red green (by omega)]
  · intro key v1 v2 indent red green h
    obtain ⟨f, rfl⟩ : ∃ f, fuel = f + 1 := ⟨fuel - 1, by omega⟩
    unfold compare
    cases v1 with
    | obj o1 =>
      cases v2 with
      | obj o2 =>
        have hs1 : jsize (JVal.obj o1) = 1 + jsizeObj o1 := rfl
        have hs2 : jsize (JVal.obj o2) = 1 + jsizeObj o2 := rfl
        simp only [cmpFuel]
        rw [(IH f (by omega)).1 o1 o2 (indent ++ "  ") red green (by omega),
          (IH (jsize (JVal.obj o1) + jsize (JVal.obj o2)) (by omega)).1 o1 o2
            (indent ++ "  ") red green (by omega)]
      | arr a2 => simp only [cmpFuel]
      | prim p2 => simp only [cmpFuel]
    | arr a1 =>
      cases v2 with
      | arr a2 =>
        have hs1 : jsize (JVal.arr a1) = 1 + jsizeArr a1 := rfl
        have hs2 : jsize (JVal.arr a2) = 1 + jsizeArr a2 := rfl
        simp only [cmpFuel]
        rw [(IH f (by omega)).2.2.2.1 a1 a2 (indent ++ "  ") red green (by omega),
          (IH (jsize (JVal.arr a1) + jsize (JVal.arr a2)) (by omega)).2.2.2.1 a1 a2
            (indent ++ "  ") red green (by omega)]
      | obj o2 => simp only [cmpFuel]
      | prim p2 => simp only [cmpFuel]
    | prim p => cases v2 <;> simp only [cmpFuel]
  · intro a b indent red green h
    obtain ⟨f, rfl⟩ : ∃ f, fuel = f + 1 := ⟨fuel - 1, by omega⟩
    unfold compareAndColorizeSlices
    simp only [ccsFuel]
    rw [(IH f (by omega)).2.2.2.2 a b 0 indent red green (by omega),
      (IH (jsizeArr a + jsizeArr b + 1) (by omega)).2.2.2.2 a b 0 indent red green (by omega)]
  · intro a b i indent red green h
    obtain ⟨f, rfl⟩ : ∃ f, fuel = f + 1 := ⟨fuel - 1, by omega⟩
    match a, b with
    | [], [] =>
      unfold ccsAux
      simp only [ccsAuxFuel]
    | x :: xs, [] =>
      have hsz : jsizeArr (x :: xs) = 1 + jsize x + jsizeArr xs := rfl
      unfold ccsAux
      simp only [ccsAuxFuel]
      rw [(IH f (by omega)).2.2.2.2 xs [] (i + 1) indent red green (by omega),
        (IH (jsizeArr (x :: xs) + jsizeArr []) (by omega)).2.2.2.2 xs [] (i + 1)
          indent red green (by omega)]
    | [], y :: ys =>
      have hsz : jsizeArr (y :: ys) = 1 + jsize y + jsizeArr ys := rfl
      unfold ccsAux
      simp only [ccsAuxFuel]
      rw [(IH f (by omega)).2.2.2.2 [] ys (i + 1) indent red green (by omega),
        (IH (jsizeArr ([] : List JVal) + jsizeArr (y :: ys)) (by omega)).2.2.2.2 [] ys
          (i + 1) indent red green (by omega)]
    | x :: xs, y :: ys =>
      have hsx : jsizeArr (x :: xs) = 1 + jsize x + jsizeArr xs := rfl
      have hsy : jsizeArr (y :: ys) = 1 + jsize y + jsizeArr ys := rfl
      unfold ccsAux
      simp only [ccsAuxFuel]
      rw [(IH f (by omega)).2.2.2.2 xs ys (i + 1) indent red green (by omega),
        (IH (jsizeArr (x :: xs) + jsizeArr (y :: ys)) (by omega)).2.2.2.2 xs ys (i + 1)
          indent red green (by omega)]
      cases x with
      | obj o1 =>
        cases y with
        | obj o2 =>
          have hs1 : jsize (JVal.obj o1) = 1 + jsizeObj o1 := rfl
          have hs2 : jsize (JVal.obj o2) = 1 + jsizeObj o2 := rfl
          dsimp only
          rw [(IH f (by omega)).1 o1 o2 (indent ++ "  ") red green (by omega),
            (IH (jsizeArr (JVal.obj o1 :: xs) + jsizeArr (JVal.obj o2 :: ys))
              (by omega)).1 o1 o2 (indent ++ "  ") red green (by omega)]
        | arr a2 => rfl
        | prim p2 => rfl
      | arr a1 =>
        cases y with
        | arr a2 =>
          have hs1 : jsize (JVal.arr a1) = 1 + jsizeArr a1 := rfl
          have hs2 : jsize (JVal.arr a2) = 1 + jsizeArr a2 := rfl
          dsimp only
          rw [(IH f (by omega)).2.2.2.1 a1 a2 (indent ++ "  ") red green (by omega),
            (IH (jsizeArr (JVal.arr a1 :: xs) + jsizeArr (JVal.arr a2 :: ys))
              (by omega)).2.2.2.1 a1 a2 (indent ++ "  ") red green (by omega)]
        | obj o2 => rfl
        | prim p2 => rfl
      | prim p => cases y <;> rfl

/-- Whitespace skipping of the JSON grammar (`encoding/json`). -/
def skipWs (l : List Char) : List Char :=
  l.dropWhile fun c => c == ' ' || c == '\t' || c == '\n' || c == '\r'

/-- The value of one hexadecimal digit. -/
def hexVal (c : Char) : Option Nat :=
  if c.isDigit then some (c.toNat - 48)
  else if 'a' ≤ c && c ≤ 'f' then some (c.toNat - 87)
  else if 'A' ≤ c && c ≤ 'F' then some (c.toNat - 55)
  else none

/-- JSON string-literal body (after the opening quote): the decoded
characters and the remaining input, handling the standard escapes. -/
def parseStrBody : List Char → Option (List Char × List Char)
  | [] => none
  | '"' :: rest => some ([], rest)
  | '\\' :: e :: rest =>
    if e == 'u' then
      match rest with
      | h1 :: h2 :: h3 :: h4 :: rest2 =>
        match hexVal h1, hexVal h2, hexVal h3, hexVal h4 with
        | some a, some b, some c, some d =>
          match parseStrBody rest2 with
          | some (sl, r) => some (Char.ofNat (((a * 16 + b) * 16 + c) * 16 + d) :: sl, r)
          | none => none
        | _, _, _, _ => none
      | _ => none
    else
      match
        (if e == '"' then some '"'
         else if e == '\\' then some '\\'
         else if e == '/' then some '/'
         else if e == 'n' then some '\n'
         else if e == 't' then some '\t'
         else if e == 'r' then some '\r'
         else if e == 'b' then some (Char.ofNat 8)
         else if e == 'f' then some (Char.ofNat 12)
         else none) with
      | some c =>
        match parseStrBody rest with
        | some (sl, r) => some (c :: sl, r)
        | none => none
      | none => none
  | c :: rest =>
    match parseStrBody rest with
    | some (sl, r) => some (c :: sl, r)
    | none => none

/-- A character that may appear in a JSON number literal. -/
def isNumChar (c : Char) : Bool :=
  c.isDigit || c == '-' || c == '+' || c == '.' || c == 'e' || c == 'E'

/-- A JSON number literal, kept as its source text (the concrete inputs
used here render identically before and after the `float64` round trip). -/
def parseNumLit (l : List Char) : Option (String × List Char) :=
  let digits := l.takeWhile isNumChar
  if digits.isEmpty then none else some (⟨digits⟩, l.drop digits.length)

/-- Map insertion for decoding: a duplicate key overwrites its entry
(`encoding/json` keeps the last value). -/
def upsertJ : List (String × JVal) → String → JVal → List (String × JVal)
  | [], k, v => [(k, v)]
  | (k2, w) :: rest, k, v =>
    if k2 == k then (k, v) :: rest else (k2, w) :: upsertJ rest k v

mutual

/-- One JSON value from the input, fuel-bounded (the fuel passed at top
level strictly bounds the call depth, so it never runs out on inputs
the grammar accepts). Models `encoding/json.Unmarshal` decoding into
`interface` values. -/
def parseVal (fuel : Nat) (l : List Char) : Option (JVal × List Char) :=
  match fuel with
  | 0 => none
  | fuel + 1 =>
    match skipWs l with
    | [] => none
    | c :: rest =>
      if c == '{' then
        match skipWs rest with
        | '}' :: rest2 => some (JVal.obj [], rest2)
        | _ => parseMembers fuel rest []
      else if c == '[' then
        match skipWs rest with
        | ']' :: rest2 => some (JVal.arr [], rest2)
        | _ => parseElems fuel rest []
      else if c == '"' then
        match parseStrBody rest with
        | some (sl, rest2) => some (JVal.prim (.str ⟨sl⟩), rest2)
        | none => none
      else if c == 't' then
        if ['r', 'u', 'e'].isPrefixOf rest then some (JVal.prim (.bool true), rest.drop 3)
        else none
      else if c == 'f' then
        if ['a', 'l', 's', 'e'].isPrefixOf rest then some (JVal.prim (.bool false), rest.drop 4)
        else none
      else if c == 'n' then
        if ['u', 'l', 'l'].isPrefixOf rest then some (JVal.prim .null, rest.drop 3)
        else none
      else
        match parseNumLit (c :: rest) with
        | some (lit, rest2) => some (JVal.prim (.num lit), rest2)
        | none => none

/-- The members of a JSON object, after its opening brace. -/
def parseMembers (fuel : Nat) (l : List Char) (acc : List (String × JVal)) :
    Option (JVal × List Char) :=
  match fuel with
  | 0 => none
  | fuel + 1 =>
    match skipWs l with
    | '"' :: rest =>
      match parseStrBody rest with
      | some (kl, rest2) =>
        match skipWs rest2 with
        | ':' :: rest3 =>
          match parseVal fuel rest3 with
          | some (v, rest4) =>
            let acc2 := upsertJ acc ⟨kl⟩ v
            match skipWs rest4 with
            | ',' :: rest5 => parseMembers fuel rest5 acc2
            | '}' :: rest5 => some (JVal.obj acc2, rest5)
            | _ => none
          | none => none
        | _ => none
      | none => none
    | _ => none

/-- The elements of a JSON array, after its opening bracket. -/
def parseElems (fuel : Nat) (l : List Char) (acc : List JVal) :
    Option (JVal × List Char) :=
  match fuel with
  | 0 => none
  | fuel + 1 =>
    match parseVal fuel l with
    | some (v, rest) =>
      match skipWs rest with
      | ',' :: rest2 => parseElems fuel rest2 (acc ++ [v])
      | ']' :: rest2 => some (JVal.arr (acc ++ [v]), rest2)
      | _ => none
    | none => none

end

/-- Go `json.Unmarshal` of a complete input: one value and nothing but
whitespace after it. -/
def parseJson (s : String) : Option JVal :=
  match parseVal (2 * s.data.length + 2) s.data with
  | some (v, rest) => if (skipWs rest).isEmpty then some v else none
  | none => none

/-- Comma joining of compactly rendered JSON pieces. -/
def cJoin : List String → String
  | [] => ""
  | [x] => x
  | x :: y :: rest => x ++ "," ++ cJoin (y :: rest)

mutual

/-- The compact JSON text of a value: the raw bytes `gjson` reports for
a nested object or array of a compactly written document (entries in
document order, strings with only the mandatory escapes). -/
def cRender : JVal → String
  | .prim .null => "null"
  | .prim (.bool b) => cond b "true" "false"
  | .prim (.num lit) => lit
  | .prim (.str s) => "\"" ++ s ++ "\""
  | .arr l => "[" ++ cJoin (cRenderArr l) ++ "]"
  | .obj l => "\x7b" ++ cJoin (cRenderObj l) ++ "\x7d"

def cRenderArr : List JVal → List String
  | [] => []
  | x :: xs => cRender x :: cRenderArr xs

def cRenderObj : List (String × JVal) → List String
  | [] => []
  | (k, v) :: xs => ("\"" ++ k ++ "\":" ++ cRender v) :: cRenderObj xs

end

/-- `gjson.Result.String()`: strings unquoted, null empty, numbers and
booleans by their literal, containers by their raw JSON text. -/
def gRender : JVal → String
  | .prim .null => ""
  | .prim (.bool b) => cond b "true" "false"
  | .prim (.num lit) => lit
  | .prim (.str s) => s
  | v => cRender v

/-- The view of a parsed top-level document that `calculateJSONDiffs`
reads through `gjson`: the top-level keys in document order, each with
the rendered text of its value.  `gjson.ParseBytes` is total and
validates nothing, so every byte input (malformed ones included) has
such a view; the package is used on top-level objects. -/
abbrev GDoc := List (String × String)

/-- `gjson` `result.Get(key)` on the document view: the value text of
the named top-level key. -/
def gjsonGet (k : String) : GDoc → Option String
  | [] => none
  | (k2, v) :: rest => if k2 == k then some v else gjsonGet k rest

/-- The `gjson` document view of a decoded value. -/
def gdocOf : JVal → GDoc
  | .obj l => l.map fun kv => (kv.1, gRender kv.2)
  | _ => []

/-- The `diffStrings` slice Go `calculateJSONDiffs` (`jsondiff.go:97-127`)
accumulates: a first `ForEach` over the first document's fields and a
second over the second document's fields. -/
def calcDiffLines (d1 d2 : GDoc) : List String :=
  let pass1 := d1.foldl (fun acc kv =>
    match gjsonGet kv.1 d2 with
    | none => acc ++ ["- \"" ++ kv.1 ++ "\": " ++ kv.2]
    | some v2 =>
      if kv.2 ≠ v2 then
        acc ++ ["- \"" ++ kv.1 ++ "\": " ++ kv.2, "+ \"" ++ kv.1 ++ "\": " ++ v2]
      else acc) []
  d2.foldl (fun acc kv =>
    match gjsonGet kv.1 d1 with
    | none => acc ++ ["+ \"" ++ kv.1 ++ "\": " ++ kv.2]
    | some _ => acc) pass1

/-- Go `calculateJSONDiffs` (`jsondiff.go:97-127`): the newline-joined
diff lines, and the error — which the source returns as literal `nil`
on its only return path. -/
def calculateJSONDiffs (d1 d2 : GDoc) : String × Option String :=
  (joinLines (calcDiffLines d1 d2), none)

/-- Characters trimmed by `strings.Trim(key, "\"'")`. -/
def isQuoteCh (c : Char) : Bool := c == '"' || c == '\''

/-- Go `strings.Trim(s, "\"'")`. -/
def trimQuotes (s : String) : String :=
  ⟨((s.data.dropWhile isQuoteCh).reverse.dropWhile isQuoteCh).reverse⟩

/-- One line of Go `extractKey` (`jsondiff.go:137-148`): strip the sign
character, find the colon, and trim the key. -/
def extractKeyLine (s : String) : Option String :=
  let str := trimSpace (strDrop 1 s)
  match str.data.findIdx? (fun c => c == ':') with
  | none => none
  | some i => some (trimQuotes (trimSpace ⟨str.data.take i⟩))

/-- Pipe joining of extracted keys. -/
def joinBar : List String → String
  | [] => ""
  | [x] => x
  | x :: y :: rest => x ++ "|" ++ joinBar (y :: rest)

/-- Go `extractKey` (`jsondiff.go:132-152`). -/
def extractKey (diffString : String) : String :=
  joinBar ((splitLines diffString).filterMap extractKeyLine)

/-- The key loop of Go `checkKeyInMaps` (`jsondiff.go:79-87`), over the
first map's iteration order. -/
def ckimLoop : List (String × JVal) → List (String × JVal) → String → String × Bool
  | [], _, _ => ("", false)
  | (k, v1) :: rest, m2, key =>
    match lookupJ k m2 with
    | some v2 =>
      if !(strContainsSub key k) && deepEqualJ v1 v2 then (k ++ ":" ++ goSprint v1, true)
      else ckimLoop rest m2 key
    | none => ckimLoop rest m2 key

/-- Go `checkKeyInMaps` (`jsondiff.go:65-91`): first unchanged top-level
key not mentioned in `key`, as `k:v` context; non-objects fail the
`json.Unmarshal` into a map and report not-found. -/
def checkKeyInMaps (d1 d2 : JVal) (key : String) : String × Bool :=
  match d1, d2 with
  | .obj m1, .obj m2 => ckimLoop m1 m2 key
  | _, _ => ("", false)

/-- The inner `truncate` closure of Go `truncateToMatchWithEllipsis`
(`jsondiff.go:692-711`). -/
def truncHalf (lines : List String) (matchLineCount : Nat) (colorStr : String) : String :=
  if lines.length ≤ matchLineCount then joinLines lines
  else if matchLineCount ≤ 3 ∨ lines.length - matchLineCount < 3 then joinLines lines
  else
    let topHalfLineCount := (matchLineCount - 3) / 2
    let bottomHalfLineCount := matchLineCount - 3 - topHalfLineCount
    let ellipsis := "\x1b[33m" ++ ".\n.\n." ++ "\x1b[0m"
    joinLines (lines.take topHalfLineCount ++ [ellipsis ++ colorStr]
      ++ lines.drop (lines.length - bottomHalfLineCount)) ++ "\x1b[0m"

/-- Go `truncateToMatchWithEllipsis` (`jsondiff.go:669-719`): truncates
each side to the midpoint line count plus one, replacing the omitted
middle with a yellow 3-line ellipsis. -/
def truncateToMatchWithEllipsis (expectedText actualText : String) : String × String :=
  let expectedLines := splitLines expectedText
  let actualLines := splitLines actualText
  let matchLineCount := (expectedLines.length + actualLines.length) / 2
  (truncHalf expectedLines (matchLineCount + 1) "\x1b[31m",
   truncHalf actualLines (matchLineCount + 1) "\x1b[32m")

/-- First character test: Go `line[0] == c` on a string known nonempty. -/
def firstCharIs (s : String) (c : Char) : Bool :=
  match s.data with
  | d :: _ => d == c
  | [] => false

/-- The mutable state of the pairing loop of Go `separateAndColorize`
(`jsondiff.go:337-427`): the speculative nested maps and arrays, their
sticky type flags (the source never resets `isExpectMap`/`isActualMap`,
and resets only the maps after a dispatch), the two accumulated outputs,
and the diff text that consumed lines are removed from. -/
structure SepState where
  expectsMap : List (String × JVal)
  actualsMap : List (String × JVal)
  expectsArray : List JVal
  actualsArray : List JVal
  isExpectMap : Bool
  isActualMap : Bool
  expect : String
  actual : String
  diffStr : String

/-- One iteration of the pairing loop of Go `separateAndColorize`
(`jsondiff.go:350-427`).  `none` from a speculative reinterpretation is
the source's `continue`: updates made before it persist. -/
def phase1Step (lines : List String) (st : SepState) (i : Nat) : SepState :=
  let line := lines.getD i ""
  let nextLine := lines.getD (i + 1) ""
  if strLen line > 0 && firstCharIs line '-' && i != lines.length - 1 then
    let aParse : Option (SepState × String) :=
      if strLen nextLine > 3 then
        match splitN2Colon (strDrop 3 nextLine) with
        | [k, v] =>
          let actualKey := trimSpace k
          let value := trimSpace v
          match parseJson value with
          | some (JVal.obj o) =>
            some ({ st with isActualMap := true,
                            actualsMap := [(strDropLast actualKey, JVal.obj o)] }, actualKey)
          | some (JVal.arr a) => some ({ st with actualsArray := a }, actualKey)
          | _ => none
        | _ => some (st, "")
      else some (st, "")
    match aParse with
    | none => st
    | some (st1, actualKey) =>
      let eParse : Option (SepState × String) :=
        match splitN2Colon (strDrop 3 line) with
        | [k, v] =>
          let expectKey := trimSpace k
          let value := trimSpace v
          match parseJson value with
          | some (JVal.obj o) =>
            some ({ st1 with isExpectMap := true,
                             expectsMap := [(strDropLast expectKey, JVal.obj o)] }, expectKey)
          | some (JVal.arr a) => some ({ st1 with expectsArray := a }, expectKey)
          | _ => none
        | _ => some (st1, "")
      match eParse with
      | none => st1
      | some (st2, expectKey) =>
        let red := ansi "31"
        let green := ansi "32"
        let branch : Option (String × String) :=
          if st2.isExpectMap && st2.isActualMap then
            some (compareAndColorizeMaps st2.expectsMap st2.actualsMap " " red green)
          else if actualKey == expectKey then
            some (compareAndColorizeSlices st2.expectsArray st2.actualsArray " " red green)
          else none
        match branch with
        | none => st2
        | some (expectedText, actualText) =>
          let t := truncateToMatchWithEllipsis (breakLines expectedText) (breakLines actualText)
          let d1 := strReplaceFirst st2.diffStr line ""
          let d2 := strReplaceFirst d1 nextLine ""
          { st2 with
            expect := st2.expect ++ breakLines t.1 ++ "\n",
            actual := st2.actual ++ breakLines t.2 ++ "\n",
            expectsMap := [], actualsMap := [],
            diffStr := d2 }
  else st

/-- The pairing loop of Go `separateAndColorize` over
`i = 0 .. len(lines)-2`. -/
def phase1 (lines : List String) (st : SepState) : SepState :=
  (List.range (lines.length - 1)).foldl (phase1Step lines) st

/-- The result of the noise scan of one diff line. -/
structure NoiseOut where
  line : String
  eAdd : String
  aAdd : String
  noised : Bool

/-- The body of the noise loop of Go `separateAndColorize`
(`jsondiff.go:442-452`) for one noise key: a matching `-` or `+` line is
softened (sign replaced by a space) and emitted uncolored to its own
side; the mutation makes later matches of the same line no-ops. -/
def noiseStep (acc : NoiseOut) (e : String) : NoiseOut :=
  if strContainsSub acc.line e then
    if firstCharIs acc.line '-' then
      let ln := " " ++ strDrop 1 acc.line
      { acc with line := ln, eAdd := acc.eAdd ++ breakWithColor ln none [], noised := true }
    else if firstCharIs acc.line '+' then
      let ln := " " ++ strDrop 1 acc.line
      { acc with line := ln, aAdd := acc.aAdd ++ breakWithColor ln none [], noised := true }
    else { acc with noised := true }
  else acc

/-- The noise loop of Go `separateAndColorize` (`jsondiff.go:441-452`)
over the noise keys in iteration order. -/
def noiseFold (noise : List String) (line : String) : NoiseOut :=
  noise.foldl noiseStep ⟨line, "", "", false⟩

/-- One iteration of the literal-coloring loop of Go
`separateAndColorize` (`jsondiff.go:436-480`): what the line at index
`i` appends to the expected and actual outputs. -/
def phase2Step (diffLines : List String) (noise : List String) (i : Nat) : String × String :=
  let line := diffLines.getD i ""
  if strLen line > 0 then
    let nf := noiseFold noise line
    if nf.noised then (nf.eAdd, nf.aAdd)
    else if firstCharIs line '-' then
      let nxt := diffLines.getD (i + 1) ""
      if decide (i < diffLines.length - 1) && strLen line > 1 && nxt ≠ "" && firstCharIs nxt '+' then
        let off := (diffIndexRange (strDrop 1 line) (strDrop 1 nxt)).1
        (breakWithColor line (some "31") off, "")
      else
        (breakWithColor line (some "31") [⟨0, (strLen line : Int) - 1⟩], "")
    else if firstCharIs line '+' then
      let prev := diffLines.getD (i - 1) ""
      if decide (i > 0) && strLen line > 1 && prev ≠ "" && firstCharIs prev '-' then
        let off := (diffIndexRange (strDrop 1 line) (strDrop 1 prev)).1
        ("", breakWithColor line (some "32") off)
      else
        ("", breakWithColor line (some "32") [⟨0, (strLen line : Int) - 1⟩])
    else
      (breakWithColor line none [], breakWithColor line none [])
  else ("", "")

/-- The literal-coloring loop of Go `separateAndColorize` over the lines
remaining in the diff text. -/
def phase2 (diffLines : List String) (noise : List String) : String × String :=
  (List.range diffLines.length).foldl (fun acc i =>
    let s := phase2Step diffLines noise i
    (acc.1 ++ s.1, acc.2 ++ s.2)) ("", "")

/-- Go `separateAndColorize` (`jsondiff.go:337-484`): the pairing pass
over the (empty-line-interleaved) diff lines, then — unless the diff
text was fully consumed — the literal-coloring pass over what remains
of it. -/
def separateAndColorize (diffStr : String) (noise : List String) : String × String :=
  let lines := insertEmptyLines (splitLines diffStr)
  let st := phase1 lines ⟨[], [], [], [], false, false, "", "", diffStr⟩
  if st.diffStr == "" then (st.expect, st.actual)
  else
    let diffLines := splitLines st.diffStr
    let p2 := phase2 diffLines noise
    (st.expect ++ p2.1, st.actual ++ p2.2)

/-- Go `SprintJSONDiff` (`jsondiff.go:22-42`).  The byte inputs are
embedded by their parsed views: `gdocOf` is what `gjson.ParseBytes`
exposes to `calculateJSONDiffs`, and the `JVal` itself is what
`json.Unmarshal` exposes to `checkKeyInMaps` (`gjson.ParseBytes` is
total and never reports an error, so every byte buffer — malformed ones
included — is represented by some such view).  The noise map is
embedded as its keys in iteration order (the values are never read). -/
def SprintJSONDiff (json1 json2 : JVal) (noise : List String) :
    Option String × String × String :=
  let calcRes := calculateJSONDiffs (gdocOf json1) (gdocOf json2)
  let diffString := calcRes.1
  if calcRes.2.isSome || diffString == "" then (calcRes.2, "", "")
  else
    let modifiedKeys := extractKey diffString
    let ck := checkKeyInMaps json1 json2 modifiedKeys
    let diffString2 := if ck.2 then ck.1 ++ "\n" ++ diffString else diffString
    let sc := separateAndColorize diffString2 noise
    (none, sc.1, sc.2)

/-- The per-key loop of Go `SprintDiffHeader` (`jsondiff.go:766-782`)
over the expected map's iteration order; a key's actual value is the
map read `actual[key]`, empty when absent. -/
def sdhLoop : List (String × String) → List (String × String) → String × String
  | [], _ => ("", "")
  | (key, expValue) :: rest, actual =>
    let actValue := (gjsonGet key actual).getD ""
    let off := diffArrayRange expValue actValue
    let expectDiff := key ++ ": " ++ breakSliceWithColor expValue "91" off.1
    let actualDiff := key ++ ": " ++ breakSliceWithColor actValue "92" off.2.1
    let tail := sdhLoop rest actual
    (breakLines expectDiff ++ "\n" ++ tail.1, breakLines actualDiff ++ "\n" ++ tail.2)

/-- Go `SprintDiffHeader` (`jsondiff.go:762-786`): word-level diff per
key of the expected header map. -/
def SprintDiffHeader (expect actual : List (String × String)) : String × String :=
  sdhLoop expect actual

theorem darLoop_mem_fst (w1 w2 : List String) :
    ∀ n i j, j ∈ (darLoop w1 w2 i n).1 ↔
      (i ≤ j ∧ j < i + n ∧ j < w1.length ∧ w1.getD j "" ≠ w2.getD j "") := by
  intro n
  induction n with
  | zero => intro i j; simp [darLoop]; omega
  | succ n ih =>
    intro i j
    simp only [darLoop]
    by_cases hne : w1.getD i "" ≠ w2.getD i ""
    · simp only [if_pos hne]
      by_cases hlt : i < w1.length
      · simp only [if_pos hlt, List.mem_cons, ih (i + 1) j]
        constructor
        · rintro (rfl | ⟨h1, h2, h3, h4⟩)
          · exact ⟨le_refl _, by omega, hlt, hne⟩
          · exact ⟨by omega, by omega, h3, h4⟩
        · rintro ⟨h1, h2, h3, h4⟩
          by_cases hij : j = i
          · exact Or.inl hij
          · exact Or.inr ⟨by omega, by omega, h3, h4⟩
      · simp only [if_neg hlt, ih (i + 1) j]
        constructor
        · rintro ⟨h1, h2, h3, h4⟩
          exact ⟨by omega, by omega, h3, h4⟩
        · rintro ⟨h1, h2, h3, h4⟩
          refine ⟨by omega, by omega, h3, h4⟩
    · simp only [if_neg hne, ih (i + 1) j]
      push_neg at hne
      constructor
      · rintro ⟨h1, h2, h3, h4⟩
        exact ⟨by omega, by omega, h3, h4⟩
      · rintro ⟨h1, h2, h3, h4⟩
        have hij : j ≠ i := by
          rintro rfl; exact h4 hne
        exact ⟨by omega, by omega, h3, h4⟩

theorem darLoop_mem_snd (w1 w2 : List String) :
    ∀ n i j, j ∈ (darLoop w1 w2 i n).2.1 ↔
      (i ≤ j ∧ j < i + n ∧ j < w2.length ∧ w1.getD j "" ≠ w2.getD j "") := by
  intro n
  induction n with
  | zero => intro i j; simp [darLoop]; omega
  | succ n ih =>
    intro i j
    simp only [darLoop]
    by_cases hne : w1.getD i "" ≠ w2.getD i ""
    · simp only [if_pos hne]
      by_cases hlt : i < w2.length
      · simp only [if_pos hlt, List.mem_cons, ih (i + 1) j]
        constructor
        · rintro (rfl | ⟨h1, h2, h3, h4⟩)
          · exact ⟨le_refl _, by omega, hlt, hne⟩
          · exact ⟨by omega, by omega, h3, h4⟩
        · rintro ⟨h1, h2, h3, h4⟩
          by_cases hij : j = i
          · exact Or.inl hij
          · exact Or.inr ⟨by omega, by omega, h3, h4⟩
      · simp only [if_neg hlt, ih (i + 1) j]
        constructor
        · rintro ⟨h1, h2, h3, h4⟩
          exact ⟨by omega, by omega, h3, h4⟩
        · rintro ⟨h1, h2, h3, h4⟩
          refine ⟨by omega, by omega, h3, h4⟩
    · simp only [if_neg hne, ih (i + 1) j]
      push_neg at hne
      constructor
      · rintro ⟨h1, h2, h3, h4⟩
        exact ⟨by omega, by omega, h3, h4⟩
      · rintro ⟨h1, h2, h3, h4⟩
        have hij : j ≠ i := by
          rintro rfl; exact h4 hne
        exact ⟨by omega, by omega, h3, h4⟩

/-- A string with no space splits into the single word that is the
whole string. -/
theorem wordsOf_nospace (s : String) (h : ∀ c ∈ s.data, c ≠ ' ') : wordsOf s = [s] := by
  unfold wordsOf
  rw [splitCh_eq_single ' ' s.data h]
  rfl

/-- C3: for every pair of strings, `diffArrayRange` splits each on single
spaces and marks a word index as differing on a side exactly when the
index is in bounds on that side and either the words at that index differ
(reading a missing word as empty) or the other side has no word there; in
particular every excess index of the longer side is marked, and two
space-free strings that differ mark exactly index 0 on both sides. -/
theorem claim_C3_diffArrayRange (s1 s2 : String) :
    (∀ j, j ∈ (diffArrayRange s1 s2).1 ↔
        j < (wordsOf s1).length ∧
          ((wordsOf s1).getD j "" ≠ (wordsOf s2).getD j "" ∨ (wordsOf s2).length ≤ j))
  ∧ (∀ j, j ∈ (diffArrayRange s1 s2).2.1 ↔
        j < (wordsOf s2).length ∧
          ((wordsOf s1).getD j "" ≠ (wordsOf s2).getD j "" ∨ (wordsOf s1).length ≤ j))
  ∧ ((∀ c ∈ s1.data, c ≠ ' ') → (∀ c ∈ s2.data, c ≠ ' ') → s1 ≠ s2 →
      (diffArrayRange s1 s2).1 = [0] ∧ (diffArrayRange s1 s2).2.1 = [0]) := by
  have hm1 : (wordsOf s1).length ≤ max (wordsOf s1).length (wordsOf s2).length :=
    Nat.le_max_left _ _
  have hm2 : (wordsOf s2).length ≤ max (wordsOf s1).length (wordsOf s2).length :=
    Nat.le_max_right _ _
  refine ⟨?_, ?_, ?_⟩
  · intro j
    have hmem := darLoop_mem_fst (wordsOf s1) (wordsOf s2)
      (max (wordsOf s1).length (wordsOf s2).length) 0 j
    by_cases hlt : (wordsOf s2).length < (wordsOf s1).length
    · simp only [diffArrayRange, if_pos hlt, List.mem_append, hmem, List.mem_range'_1]
      constructor
      · rintro (⟨h1, h2, h3, h4⟩ | ⟨h1, h2⟩)
        · exact ⟨h3, Or.inl h4⟩
        · exact ⟨by omega, Or.inr h1⟩
      · rintro ⟨h1, h2 | h2⟩
        · exact Or.inl ⟨Nat.zero_le j, by omega, h1, h2⟩
        · exact Or.inr ⟨h2, by omega⟩
    · simp only [diffArrayRange, if_neg hlt, hmem]
      constructor
      · rintro ⟨h1, h2, h3, h4⟩
        exact ⟨h3, Or.inl h4⟩
      · rintro ⟨h1, h2 | h2⟩
        · exact ⟨Nat.zero_le j, by omega, h1, h2⟩
        · exact ⟨Nat.zero_le j, by omega, h1, by omega⟩
  · intro j
    have hmem := darLoop_mem_snd (wordsOf s1) (wordsOf s2)
      (max (wordsOf s1).length (wordsOf s2).length) 0 j
    by_cases hlt : (wordsOf s1).length < (wordsOf s2).length
    · simp only [diffArrayRange, if_pos hlt, List.mem_append, hmem, List.mem_range'_1]
      constructor
      · rintro (⟨h1, h2, h3, h4⟩ | ⟨h1, h2⟩)
        · exact ⟨h3, Or.inl h4⟩
        · exact ⟨by omega, Or.inr h1⟩
      · rintro ⟨h1, h2 | h2⟩
        · exact Or.inl ⟨Nat.zero_le j, by omega, h1, h2⟩
        · exact Or.inr ⟨h2, by omega⟩
    · simp only [diffArrayRange, if_neg hlt, hmem]
      constructor
      · rintro ⟨h1, h2, h3, h4⟩
        exact ⟨h3, Or.inl h4⟩
      · rintro ⟨h1, h2 | h2⟩
        · exact ⟨Nat.zero_le j, by omega, h1, h2⟩
        · exact ⟨Nat.zero_le j, by omega, h1, by omega⟩
  · intro h1 h2 hne
    have hw1 : wordsOf s1 = [s1] := wordsOf_nospace s1 h1
    have hw2 : wordsOf s2 = [s2] := wordsOf_nospace s2 h2
    simp [diffArrayRange, hw1, hw2, darLoop, hne]

/-- Every range the `diffIndexRange` loop emits has `End` exactly one
less than `Start` plus the first string's word length, hence
`Start - 1 ≤ End`, with a nonnegative `Start`. -/
theorem dirLoop_ranges (w1 w2 : List String) :
    ∀ n i st r, r ∈ (dirLoop w1 w2 i st n).1 → r.Start - 1 ≤ r.End ∧ 0 ≤ r.Start := by
  intro n
  induction n with
  | zero => intro i st r h; simp [dirLoop] at h
  | succ n ih =>
    intro i st r h
    simp only [dirLoop] at h
    split at h
    · rcases List.mem_cons.mp h with rfl | h2
      · constructor
        · show (st : Int) - 1 ≤ (st : Int) + ((w1.getD i "").length : Int) - 1
          omega
        · show (0 : Int) ≤ (st : Int)
          omega
      · exact ih (i + 1) _ r h2
    · exact ih (i + 1) _ r h

/-- C7 (amended): every range `diffIndexRange` produces satisfies
`Start - 1 ≤ End` (with equality exactly when the differing word on the
first side is empty) and `0 ≤ Start`; `Start < End` holds only when that
word has at least two characters, so it is not an invariant. -/
theorem claim_C7_ranges (s1 s2 : String) (r : Range)
    (hr : r ∈ (diffIndexRange s1 s2).1) : r.Start - 1 ≤ r.End ∧ 0 ≤ r.Start := by
  exact dirLoop_ranges (wordsOf s1) (wordsOf s2) _ 0 0 r hr

/-- C7 counterexample: on the single-character words `"a"` and `"b"`,
the produced range is `⟨0, 0⟩`, for which `Start < End` fails. -/
theorem claim_C7_counterexample :
    (diffIndexRange "a" "b").1 = [⟨0, 0⟩] ∧ ¬((0 : Int) < (0 : Int)) := by
  exact ⟨by decide, by decide⟩

/-- Witness for `claim_C7_ranges` at the concrete input `"a"`, `"b"`. -/
theorem claim_C7_witness :
    (⟨0, 0⟩ : Range) ∈ (diffIndexRange "a" "b").1 ∧
      ((⟨0, 0⟩ : Range).Start - 1 ≤ (⟨0, 0⟩ : Range).End ∧ 0 ≤ (⟨0, 0⟩ : Range).Start) :=
  ⟨by decide, claim_C7_ranges "a" "b" ⟨0, 0⟩ (by decide)⟩

/-- C2 (amended): the compare entry point never returns a non-nil error:
`calculateJSONDiffs` returns literal `nil` on its only return path, so
for every input — the lenient `gjson` parse gives every byte buffer,
malformed ones included, a document view — the returned error is `none`. -/
theorem claim_C2_never_error (json1 json2 : JVal) (noise : List String) :
    (SprintJSONDiff json1 json2 noise).1 = none := by
  simp only [SprintJSONDiff, calculateJSONDiffs]
  split <;> rfl

/-- C2 counterexample: for the well-formed `{"a":1}` against the
malformed buffer `"{"` — whose lenient `gjson` parse exposes no
top-level fields, i.e. the empty document view, and whose
`json.Unmarshal` fails so the context scan sees no object — the call
returns a `nil` error together with a non-empty expected rendering,
not a non-nil error with an empty diff. -/
theorem claim_C2_counterexample :
    (SprintJSONDiff (JVal.obj [("a", JVal.prim (.num "1"))]) (JVal.obj []) []).1 = none ∧
      (SprintJSONDiff (JVal.obj [("a", JVal.prim (.num "1"))]) (JVal.obj []) []).2.1 ≠ "" := by
  exact ⟨by decide, by decide⟩

/-- The first `ForEach` of `calculateJSONDiffs`, restated: appending
per-field records to an accumulator is the accumulator followed by the
concatenation of each field's records. -/
theorem calcPass1_eq (d2 : GDoc) :
    ∀ (d1 : GDoc) (acc : List String),
      (d1.foldl (fun acc kv =>
        match gjsonGet kv.1 d2 with
        | none => acc ++ ["- \"" ++ kv.1 ++ "\": " ++ kv.2]
        | some v2 =>
          if kv.2 ≠ v2 then
            acc ++ ["- \"" ++ kv.1 ++ "\": " ++ kv.2, "+ \"" ++ kv.1 ++ "\": " ++ v2]
          else acc) acc) =
      acc ++ (d1.flatMap fun kv =>
        match gjsonGet kv.1 d2 with
        | none => ["- \"" ++ kv.1 ++ "\": " ++ kv.2]
        | some v2 =>
          if kv.2 ≠ v2 then
            ["- \"" ++ kv.1 ++ "\": " ++ kv.2, "+ \"" ++ kv.1 ++ "\": " ++ v2]
          else []) := by
  intro d1
  induction d1 with
  | nil => intro acc; simp
  | cons kv rest ih =>
    intro acc
    simp only [List.foldl_cons, List.flatMap_cons]
    rcases h : gjsonGet kv.1 d2 with _ | v2 <;> simp only [h]
    · rw [ih]
      simp
    · by_cases hne : kv.2 ≠ v2
      · simp only [if_pos hne]
        rw [ih]
        simp
      · simp only [if_neg hne]
        rw [ih]
        simp

/-- The second `ForEach` of `calculateJSONDiffs`, restated: one added
record per field of the second document absent from the first. -/
theorem calcPass2_eq (d1 : GDoc) :
    ∀ (d2 : GDoc) (acc : List String),
      (d2.foldl (fun acc kv =>
        match gjsonGet kv.1 d1 with
        | none => acc ++ ["+ \"" ++ kv.1 ++ "\": " ++ kv.2]
        | some _ => acc) acc) =
      acc ++ (d2.filter fun kv => (gjsonGet kv.1 d1).isNone).map
        (fun kv => "+ \"" ++ kv.1 ++ "\": " ++ kv.2) := by
  intro d2
  induction d2 with
  | nil => intro acc; simp
  | cons kv rest ih =>
    intro acc
    simp only [List.foldl_cons, List.filter_cons]
    rcases h : gjsonGet kv.1 d1 with _ | v2 <;> simp only [h]
    · rw [ih]
      simp [Option.isNone]
    · rw [ih]
      simp [Option.isNone]

/-- C1: `calculateJSONDiffs` produces, in order, for each top-level field
of the first document: one removed record when the field is absent from
the second, the removed record immediately followed by the added record
when the rendered value texts differ, and nothing when they agree
(equality is comparison of the rendered value texts); then one added
record for each field of the second document absent from the first — all
joined by newlines, with a `nil` error. -/
theorem claim_C1_calculateJSONDiffs (d1 d2 : GDoc) :
    calculateJSONDiffs d1 d2 =
      (joinLines
        ((d1.flatMap fun kv =>
          match gjsonGet kv.1 d2 with
          | none => ["- \"" ++ kv.1 ++ "\": " ++ kv.2]
          | some v2 =>
            if kv.2 ≠ v2 then
              ["- \"" ++ kv.1 ++ "\": " ++ kv.2, "+ \"" ++ kv.1 ++ "\": " ++ v2]
            else [])
        ++ ((d2.filter fun kv => (gjsonGet kv.1 d1).isNone).map
            (fun kv => "+ \"" ++ kv.1 ++ "\": " ++ kv.2))),
       none) := by
  unfold calculateJSONDiffs calcDiffLines
  rw [calcPass1_eq, calcPass2_eq]
  simp

/-- Pieces of a split contain no separator. -/
theorem splitCh_no_sep (sep : Char) :
    ∀ (l : List Char), ∀ p ∈ splitCh sep l, sep ∉ p := by
  intro l
  induction l with
  | nil =>
    intro p hp
    simp only [splitCh, List.mem_singleton] at hp
    simp [hp]
  | cons c cs ih =>
    intro p hp
    simp only [splitCh] at hp
    by_cases hc : c = sep
    · simp only [if_pos hc, List.mem_cons] at hp
      rcases hp with rfl | hp
      · simp
      · exact ih p hp
    · simp only [if_neg hc] at hp
      rcases hsp : splitCh sep cs with _ | ⟨p0, ps⟩
      · exact absurd hsp (splitCh_ne_nil sep cs)
      · rw [hsp] at hp
        rcases List.mem_cons.mp hp with rfl | hp2
        · intro hmem
          rcases List.mem_cons.mp hmem with rfl | hmem2
          · exact hc rfl
          · exact ih p0 (hsp ▸ List.mem_cons_self p0 ps) hmem2
        · exact ih p (hsp ▸ List.mem_cons_of_mem p0 hp2)

/-- A split has one more piece than the number of separators. -/
theorem splitCh_length_eq (sep : Char) :
    ∀ (l : List Char), (splitCh sep l).length = l.count sep + 1 := by
  intro l
  induction l with
  | nil => simp [splitCh]
  | cons c cs ih =>
    simp only [splitCh]
    by_cases hc : c = sep
    · simp [if_pos hc, ih, List.count_cons, hc]
    · simp only [if_neg hc]
      rcases hsp : splitCh sep cs with _ | ⟨p0, ps⟩
      · exact absurd hsp (splitCh_ne_nil sep cs)
      · rw [hsp] at ih
        simp only [List.length_cons] at ih ⊢
        have hcnt : (c :: cs).count sep = cs.count sep := by
          simp [List.count_cons, hc]
        omega

/-- Joining the newline-split of a character list restores it. -/
theorem joinNl_splitCh : ∀ (l : List Char), joinNl (splitCh '\n' l) = l := by
  intro l
  induction l with
  | nil => rfl
  | cons c cs ih =>
    simp only [splitCh]
    by_cases hc : c = '\n'
    · simp only [if_pos hc]
      rcases hsp : splitCh '\n' cs with _ | ⟨p, ps⟩
      · exact absurd hsp (splitCh_ne_nil _ cs)
      · rw [hsp] at ih
        simp only [joinNl, List.nil_append]
        rw [ih, hc]
    · simp only [if_neg hc]
      rcases hsp : splitCh '\n' cs with _ | ⟨p, ps⟩
      · exact absurd hsp (splitCh_ne_nil _ cs)
      · rw [hsp] at ih
        cases ps with
        | nil =>
          simp only [joinNl] at ih ⊢
          rw [ih]
        | cons q qs =>
          simp only [joinNl, List.cons_append] at ih ⊢
          rw [ih]

/-- `joinLines` over wrapped character lists is the wrap of `joinNl`. -/
theorem joinLines_map_mk :
    ∀ (ls : List (List Char)),
      joinLines (ls.map fun l => (⟨l⟩ : String)) = ⟨joinNl ls⟩ := by
  intro ls
  match ls with
  | [] => rfl
  | [x] => rfl
  | x :: y :: rest =>
    have ih := joinLines_map_mk (y :: rest)
    simp only [List.map_cons, joinLines, joinNl] at ih ⊢
    rw [ih]
    apply String.ext
    simp [String.data_append]

/-- Go `strings.Join(strings.Split(s, "\n"), "\n")` is `s`. -/
theorem joinLines_splitLines (s : String) : joinLines (splitLines s) = s := by
  unfold splitLines
  rw [joinLines_map_mk, joinNl_splitCh]

/-- The pieces of a newline split contain no newline. -/
theorem splitLines_no_newline (s : String) :
    ∀ l ∈ splitLines s, '\n' ∉ l.data := by
  intro l hl
  simp only [splitLines, List.mem_map] at hl
  obtain ⟨p, hp, rfl⟩ := hl
  exact splitCh_no_sep '\n' s.data p hp

/-- The number of lines of a string is its newline count plus one. -/
theorem splitLines_length (s : String) :
    (splitLines s).length = s.data.count '\n' + 1 := by
  simp [splitLines, splitCh_length_eq]

/-- Newline count of a joined nonempty line list. -/
theorem count_joinLines :
    ∀ (ls : List String), ls ≠ [] →
      (joinLines ls).data.count '\n' + 1 =
        (ls.map fun l => l.data.count '\n').sum + ls.length := by
  intro ls
  match ls with
  | [] => intro h; exact absurd rfl h
  | [x] => intro _; simp [joinLines]
  | x :: y :: rest =>
    intro _
    have ih := count_joinLines (y :: rest) (by simp)
    simp only [List.map_cons, List.sum_cons, List.length_cons] at ih ⊢
    have hdata : (joinLines (x :: y :: rest)).data
        = x.data ++ '\n' :: (joinLines (y :: rest)).data := by
      show (x ++ "\n" ++ joinLines (y :: rest)).data
          = x.data ++ '\n' :: (joinLines (y :: rest)).data
      simp [String.data_append]
    rw [hdata, List.count_append, List.count_cons_self]
    omega

/-- Physical line count of a truncated block shape: newline-free outer
lines around one middle element, joined and suffixed with a reset. -/
theorem splitLines_truncShape (pre post : List String) (mid : String)
    (hpre : ∀ l ∈ pre, '\n' ∉ l.data) (hpost : ∀ l ∈ post, '\n' ∉ l.data) :
    (splitLines (joinLines (pre ++ [mid] ++ post) ++ "\x1b[0m")).length
      = pre.length + post.length + mid.data.count '\n' + 1 := by
  rw [splitLines_length, String.data_append, List.count_append]
  have hreset : ("\x1b[0m" : String).data.count '\n' = 0 := by decide
  have hne : pre ++ [mid] ++ post ≠ [] := by simp
  have hcnt := count_joinLines (pre ++ [mid] ++ post) hne
  have hsum : ((pre ++ [mid] ++ post).map fun l => l.data.count '\n').sum
      = mid.data.count '\n' := by
    simp only [List.map_append, List.sum_append, List.map_cons, List.map_nil,
      List.sum_cons, List.sum_nil]
    have h1 : (pre.map fun l => l.data.count '\n').sum = 0 := by
      apply List.sum_eq_zero
      intro x hx
      simp only [List.mem_map] at hx
      obtain ⟨l, hl, rfl⟩ := hx
      exact List.count_eq_zero.mpr (hpre l hl)
    have h2 : (post.map fun l => l.data.count '\n').sum = 0 := by
      apply List.sum_eq_zero
      intro x hx
      simp only [List.mem_map] at hx
      obtain ⟨l, hl, rfl⟩ := hx
      exact List.count_eq_zero.mpr (hpost l hl)
    omega
  have hlen : (pre ++ [mid] ++ post).length = pre.length + 1 + post.length := by
    simp only [List.length_append, List.length_cons, List.length_nil]
  rw [hsum, hlen] at hcnt
  omega

/-- The unchanged branches of the `truncate` closure of
`truncateToMatchWithEllipsis`: a block at or under the threshold, a tiny
threshold, or a margin under 3 lines is returned joined as it came. -/
theorem truncHalf_unchanged (lines : List String) (m : Nat) (colorStr : String)
    (h : lines.length ≤ m ∨ m ≤ 3 ∨ lines.length - m < 3) :
    truncHalf lines m colorStr = joinLines lines := by
  unfold truncHalf
  by_cases h1 : lines.length ≤ m
  · rw [if_pos h1]
  · rw [if_neg h1, if_pos (by omega : (m ≤ 3 ∨ lines.length - m < 3))]

/-- The truncating branch of the `truncate` closure: the output has
exactly `m` physical lines, whatever the input length. -/
theorem truncHalf_lines (lines : List String) (m : Nat) (colorStr : String)
    (hnl : ∀ l ∈ lines, '\n' ∉ l.data) (hcs : '\n' ∉ colorStr.data)
    (hm : 3 < m) (hlen : m < lines.length) (hmargin : 3 ≤ lines.length - m) :
    (splitLines (truncHalf lines m colorStr)).length = m := by
  unfold truncHalf
  rw [if_neg (by omega), if_neg (by omega : ¬(m ≤ 3 ∨ lines.length - m < 3))]
  have hpre : ∀ l ∈ lines.take ((m - 3) / 2), '\n' ∉ l.data := by
    intro l hl
    exact hnl l (List.mem_of_mem_take hl)
  have hpost : ∀ l ∈ lines.drop (lines.length - (m - 3 - (m - 3) / 2)), '\n' ∉ l.data := by
    intro l hl
    exact hnl l (List.mem_of_mem_drop hl)
  have hshape := splitLines_truncShape
    (lines.take ((m - 3) / 2))
    (lines.drop (lines.length - (m - 3 - (m - 3) / 2)))
    (("\x1b[33m" ++ ".\n.\n." ++ "\x1b[0m") ++ colorStr) hpre hpost
  rw [hshape]
  have hmid : ((("\x1b[33m" ++ ".\n.\n." ++ "\x1b[0m") ++ colorStr)).data.count '\n' = 2 := by
    rw [String.data_append, List.count_append]
    have : (("\x1b[33m" ++ ".\n.\n." ++ "\x1b[0m") : String).data.count '\n' = 2 := by decide
    have hcs0 : colorStr.data.count '\n' = 0 := List.count_eq_zero.mpr hcs
    omega
  rw [hmid]
  rw [List.length_take, List.length_drop]
  omega

/-- C8: truncation of a pair of blocks replaces the middle of an
over-threshold block with the fixed 3-line ellipsis marker so that its
output line count equals the computed midpoint threshold
(`(lenE + lenA)/2 + 1`, independent of the original size and under the
threshold plus the fixed 3-line ellipsis overhead), and it triggers only
when the block exceeds that threshold with a remaining margin of at
least 3 lines — otherwise the block is returned unchanged. -/
theorem claim_C8_truncateToMatchWithEllipsis (expectedText actualText : String) :
    ((((splitLines expectedText).length + (splitLines actualText).length) / 2 + 1
          < (splitLines expectedText).length ∧
        3 ≤ (splitLines expectedText).length
            - (((splitLines expectedText).length + (splitLines actualText).length) / 2 + 1) →
      (splitLines (truncateToMatchWithEllipsis expectedText actualText).1).length
        = ((splitLines expectedText).length + (splitLines actualText).length) / 2 + 1)
    ∧ (¬ ((((splitLines expectedText).length + (splitLines actualText).length) / 2 + 1
            < (splitLines expectedText).length) ∧
          3 ≤ (splitLines expectedText).length
              - (((splitLines expectedText).length + (splitLines actualText).length) / 2 + 1)) →
      (truncateToMatchWithEllipsis expectedText actualText).1 = expectedText))
  ∧ ((((splitLines expectedText).length + (splitLines actualText).length) / 2 + 1
          < (splitLines actualText).length ∧
        3 ≤ (splitLines actualText).length
            - (((splitLines expectedText).length + (splitLines actualText).length) / 2 + 1) →
      (splitLines (truncateToMatchWithEllipsis expectedText actualText).2).length
        = ((splitLines expectedText).length + (splitLines actualText).length) / 2 + 1)
    ∧ (¬ ((((splitLines expectedText).length + (splitLines actualText).length) / 2 + 1
            < (splitLines actualText).length) ∧
          3 ≤ (splitLines actualText).length
              - (((splitLines expectedText).length + (splitLines actualText).length) / 2 + 1)) →
      (truncateToMatchWithEllipsis expectedText actualText).2 = actualText)) := by
  refine ⟨⟨?_, ?_⟩, ?_, ?_⟩
  · rintro ⟨h1, h2⟩
    show (splitLines (truncHalf (splitLines expectedText)
      (((splitLines expectedText).length + (splitLines actualText).length) / 2 + 1)
      "\x1b[31m")).length = _
    apply truncHalf_lines _ _ _ (splitLines_no_newline expectedText) (by decide) _ h1 h2
    omega
  · intro h
    show truncHalf (splitLines expectedText)
      (((splitLines expectedText).length + (splitLines actualText).length) / 2 + 1)
      "\x1b[31m" = expectedText
    rw [truncHalf_unchanged _ _ _ (by omega), joinLines_splitLines]
  · rintro ⟨h1, h2⟩
    show (splitLines (truncHalf (splitLines actualText)
      (((splitLines expectedText).length + (splitLines actualText).length) / 2 + 1)
      "\x1b[32m")).length = _
    apply truncHalf_lines _ _ _ (splitLines_no_newline actualText) (by decide) _ h1 h2
    omega
  · intro h
    show truncHalf (splitLines actualText)
      (((splitLines expectedText).length + (splitLines actualText).length) / 2 + 1)
      "\x1b[32m" = actualText
    rw [truncHalf_unchanged _ _ _ (by omega), joinLines_splitLines]

/-- Plain concatenation of rendered pieces. -/
def joinCat : List String → String
  | [] => ""
  | x :: xs => x ++ joinCat xs

/-- `SprintDiffHeader` unrolled to one rendered group per expected key. -/
theorem sdh_decomp (actual : List (String × String)) :
    ∀ expect, SprintDiffHeader expect actual =
      (joinCat (expect.map fun kv =>
         breakLines (kv.1 ++ ": " ++ breakSliceWithColor kv.2 "91"
           (diffArrayRange kv.2 ((gjsonGet kv.1 actual).getD "")).1) ++ "\n"),
       joinCat (expect.map fun kv =>
         breakLines (kv.1 ++ ": " ++ breakSliceWithColor ((gjsonGet kv.1 actual).getD "") "92"
           (diffArrayRange kv.2 ((gjsonGet kv.1 actual).getD "")).2.1) ++ "\n")) := by
  intro expect
  induction expect with
  | nil => rfl
  | cons kv rest ih =>
    unfold SprintDiffHeader at ih ⊢
    simp only [sdhLoop, List.map_cons, joinCat]
    rw [ih]

/-- C10: the header comparison renders exactly one line group per key of
the expected map, iterating only the expected map's keys in order; the
actual map is read only at the expected keys, so a key present only in
the actual map produces no line on either side and its value is never
rendered (two actual maps agreeing on the expected keys give identical
output). -/
theorem claim_C10_SprintDiffHeader (expect actual actual2 : List (String × String)) :
    (SprintDiffHeader expect actual =
      (joinCat (expect.map fun kv =>
         breakLines (kv.1 ++ ": " ++ breakSliceWithColor kv.2 "91"
           (diffArrayRange kv.2 ((gjsonGet kv.1 actual).getD "")).1) ++ "\n"),
       joinCat (expect.map fun kv =>
         breakLines (kv.1 ++ ": " ++ breakSliceWithColor ((gjsonGet kv.1 actual).getD "") "92"
           (diffArrayRange kv.2 ((gjsonGet kv.1 actual).getD "")).2.1) ++ "\n")))
  ∧ ((∀ kv ∈ expect, gjsonGet kv.1 actual = gjsonGet kv.1 actual2) →
      SprintDiffHeader expect actual = SprintDiffHeader expect actual2) := by
  constructor
  · exact sdh_decomp actual expect
  · intro h
    induction expect with
    | nil => rfl
    | cons kv rest ih =>
      unfold SprintDiffHeader at ih ⊢
      simp only [sdhLoop]
      have hkv := h kv (List.mem_cons_self kv rest)
      rw [hkv]
      have htail := ih fun kv2 h2 => h kv2 (List.mem_cons_of_mem kv h2)
      rw [htail]

/-- Unfolding of `compareAndColorizeMaps` into its first and second pass. -/
theorem compareAndColorizeMaps_eq (a b : List (String × JVal)) (indent : String)
    (red green : String → String) :
    compareAndColorizeMaps a b indent red green =
      ("\x7b\n" ++ (ccmFirstPass a b indent red green).1 ++ indent ++ "\x7d",
       "\x7b\n" ++ (ccmFirstPass a b indent red green).2
         ++ ccmSecondPass b a indent green ++ indent ++ "\x7d") := by
  show ccmFuel (jsizeObj a + jsizeObj b + 2) a b indent red green = _
  simp only [ccmFuel]
  rw [(fuelNest_eq (jsizeObj a + jsizeObj b + 1)).2.1 a b indent red green (by omega)]

/-- First-pass equation: empty first map. -/
theorem ccmFirstPass_nil (b : List (String × JVal)) (indent : String)
    (red green : String → String) :
    ccmFirstPass [] b indent red green = ("", "") := by
  show fpFuel (jsizeObj [] + jsizeObj b + 1) [] b indent red green = _
  simp only [fpFuel]

/-- First-pass equation: one entry of the first map followed by the rest. -/
theorem ccmFirstPass_cons (key : String) (aValue : JVal) (rest b : List (String × JVal))
    (indent : String) (red green : String → String) :
    ccmFirstPass ((key, aValue) :: rest) b indent red green =
      match lookupJ key b with
      | none =>
        (writeKeyValuePair (red key) aValue (indent ++ "  ") (some red)
           ++ (ccmFirstPass rest b indent red green).1,
         (ccmFirstPass rest b indent red green).2)
      | some bValue =>
        ((compare key aValue bValue (indent ++ "  ") red green).1
           ++ (ccmFirstPass rest b indent red green).1,
         (compare key aValue bValue (indent ++ "  ") red green).2
           ++ (ccmFirstPass rest b indent red green).2) := by
  have hsz : jsizeObj ((key, aValue) :: rest) = 1 + jsize aValue + jsizeObj rest := rfl
  have hpos := jsize_pos aValue
  show fpFuel (jsizeObj ((key, aValue) :: rest) + jsizeObj b + 1)
    ((key, aValue) :: rest) b indent red green = _
  simp only [fpFuel]
  rcases h2 : lookupJ key b with _ | bValue
  · simp only [h2]
    rw [(fuelNest_eq (jsizeObj ((key, aValue) :: rest) + jsizeObj b)).2.1 rest b
      indent red green (by omega)]
  · have hb := lookupJ_jsize h2
    simp only [h2]
    rw [(fuelNest_eq (jsizeObj ((key, aValue) :: rest) + jsizeObj b)).2.1 rest b
        indent red green (by omega),
      (fuelNest_eq (jsizeObj ((key, aValue) :: rest) + jsizeObj b)).2.2.1 key aValue
        bValue (indent ++ "  ") red green (by omega)]

/-- Unfolding of `compareAndColorizeSlices` into its index loop. -/
theorem compareAndColorizeSlices_eq (a b : List JVal) (indent : String)
    (red green : String → String) :
    compareAndColorizeSlices a b indent red green = ccsAux a b 0 indent red green := by
  show ccsFuel (jsizeArr a + jsizeArr b + 2) a b indent red green = _
  simp only [ccsFuel]
  rw [(fuelNest_eq (jsizeArr a + jsizeArr b + 1)).2.2.2.2 a b 0 indent red green (by omega)]

/-- Index-loop equation: both slices exhausted. -/
theorem ccsAux_nil_nil (i : Nat) (indent : String) (red green : String → String) :
    ccsAux [] [] i indent red green = ("", "") := by
  show ccsAuxFuel (jsizeArr [] + jsizeArr [] + 1) [] [] i indent red green = _
  simp only [ccsAuxFuel]

/-- Index-loop equation: an index present only in the first slice. -/
theorem ccsAux_cons_nil (x : JVal) (xs : List JVal) (i : Nat) (indent : String)
    (red green : String → String) :
    ccsAux (x :: xs) [] i indent red green =
      (indent ++ "[" ++ toString i ++ "]: " ++ red (serialize x) ++ "\n"
         ++ (ccsAux xs [] (i + 1) indent red green).1,
       (ccsAux xs [] (i + 1) indent red green).2) := by
  have hsz : jsizeArr (x :: xs) = 1 + jsize x + jsizeArr xs := rfl
  show ccsAuxFuel (jsizeArr (x :: xs) + jsizeArr [] + 1) (x :: xs) [] i indent red green = _
  simp only [ccsAuxFuel]
  rw [(fuelNest_eq (jsizeArr (x :: xs) + jsizeArr [])).2.2.2.2 xs [] (i + 1)
    indent red green (by omega)]

/-- Index-loop equation: an index present only in the second slice. -/
theorem ccsAux_nil_cons (y : JVal) (ys : List JVal) (i : Nat) (indent : String)
    (red green : String → String) :
    ccsAux [] (y :: ys) i indent red green =
      ((ccsAux [] ys (i + 1) indent red green).1,
       indent ++ "[" ++ toString i ++ "]: " ++ green (serialize y) ++ "\n"
         ++ (ccsAux [] ys (i + 1) indent red green).2) := by
  have hsz : jsizeArr (y :: ys) = 1 + jsize y + jsizeArr ys := rfl
  show ccsAuxFuel (jsizeArr [] + jsizeArr (y :: ys) + 1) [] (y :: ys) i indent red green = _
  simp only [ccsAuxFuel]
  rw [(fuelNest_eq (jsizeArr ([] : List JVal) + jsizeArr (y :: ys))).2.2.2.2 [] ys (i + 1)
    indent red green (by omega)]

/-- The emission of one index where both elements exist, as the source's
type switch (`jsondiff.go:207-241`). -/
def ccsHead (x y : JVal) (i : Nat) (indent : String)
    (red green : String → String) : String × String :=
  match x, y with
  | JVal.obj o1, JVal.obj o2 =>
    let r := compareAndColorizeMaps o1 o2 (indent ++ "  ") red green
    (indent ++ "[" ++ toString i ++ "]: " ++ r.1 ++ "\n",
     indent ++ "[" ++ toString i ++ "]: " ++ r.2 ++ "\n")
  | JVal.obj _, _ =>
    (indent ++ "[" ++ toString i ++ "]: " ++ red ("%v" ++ goSprint x) ++ "\n",
     indent ++ "[" ++ toString i ++ "]: " ++ green ("%v" ++ goSprint y) ++ "\n")
  | JVal.arr a1, JVal.arr a2 =>
    let r := compareAndColorizeSlices a1 a2 (indent ++ "  ") red green
    (indent ++ "[" ++ toString i ++ "]: [\n" ++ r.1 ++ indent ++ "]\n",
     indent ++ "[" ++ toString i ++ "]: [\n" ++ r.2 ++ indent ++ "]\n")
  | JVal.arr _, _ =>
    (indent ++ "[" ++ toString i ++ "]: " ++ red ("%v" ++ goSprint x) ++ "\n",
     indent ++ "[" ++ toString i ++ "]: " ++ green ("%v" ++ goSprint y) ++ "\n")
  | JVal.prim p, _ =>
    if !(primDeepEqual p y) then
      (indent ++ "[" ++ toString i ++ "]: " ++ red (goSprint x) ++ "\n",
       indent ++ "[" ++ toString i ++ "]: " ++ green (goSprint y) ++ "\n")
    else
      (indent ++ "[" ++ toString i ++ "]: " ++ goSprint x ++ "\n",
       indent ++ "[" ++ toString i ++ "]: " ++ goSprint y ++ "\n")

/-- Index-loop equation: both elements exist. -/
theorem ccsAux_cons_cons (x y : JVal) (xs ys : List JVal) (i : Nat) (indent : String)
    (red green : String → String) :
    ccsAux (x :: xs) (y :: ys) i indent red green =
      ((ccsHead x y i indent red green).1 ++ (ccsAux xs ys (i + 1) indent red green).1,
       (ccsHead x y i indent red green).2 ++ (ccsAux xs ys (i + 1) indent red green).2) := by
  have hsx : jsizeArr (x :: xs) = 1 + jsize x + jsizeArr xs := rfl
  have hsy : jsizeArr (y :: ys) = 1 + jsize y + jsizeArr ys := rfl
  show ccsAuxFuel (jsizeArr (x :: xs) + jsizeArr (y :: ys) + 1)
    (x :: xs) (y :: ys) i indent red green = _
  simp only [ccsAuxFuel]
  rw [(fuelNest_eq (jsizeArr (x :: xs) + jsizeArr (y :: ys))).2.2.2.2 xs ys (i + 1)
    indent red green (by omega)]
  cases x with
  | obj o1 =>
    cases y with
    | obj o2 =>
      have hs1 : jsize (JVal.obj o1) = 1 + jsizeObj o1 := rfl
      have hs2 : jsize (JVal.obj o2) = 1 + jsizeObj o2 := rfl
      dsimp only [ccsHead]
      rw [(fuelNest_eq (jsizeArr (JVal.obj o1 :: xs) + jsizeArr (JVal.obj o2 :: ys))).1
        o1 o2 (indent ++ "  ") red green (by omega)]
    | arr a2 => rfl
    | prim p2 => rfl
  | arr a1 =>
    cases y with
    | arr a2 =>
      have hs1 : jsize (JVal.arr a1) = 1 + jsizeArr a1 := rfl
      have hs2 : jsize (JVal.arr a2) = 1 + jsizeArr a2 := rfl
      dsimp only [ccsHead]
      rw [(fuelNest_eq (jsizeArr (JVal.arr a1 :: xs) + jsizeArr (JVal.arr a2 :: ys))).2.2.2.1
        a1 a2 (indent ++ "  ") red green (by omega)]
    | obj o2 => rfl
    | prim p2 => rfl
  | prim p => cases y <;> rfl

/-- The first pass of `compareAndColorizeMaps` unrolled: one chunk per
entry of the first map, in its iteration order, each determined by the
entry and the second map's lookup at its key. -/
theorem ccmFirstPass_decomp (b : List (String × JVal)) (indent : String)
    (red green : String → String) :
    ∀ a, ccmFirstPass a b indent red green =
      (joinCat (a.map fun kv =>
          match lookupJ kv.1 b with
          | none => writeKeyValuePair (red kv.1) kv.2 (indent ++ "  ") (some red)
          | some bValue => (compare kv.1 kv.2 bValue (indent ++ "  ") red green).1),
       joinCat (a.map fun kv =>
          match lookupJ kv.1 b with
          | none => ""
          | some bValue => (compare kv.1 kv.2 bValue (indent ++ "  ") red green).2)) := by
  intro a
  induction a with
  | nil => simp [ccmFirstPass_nil, joinCat]
  | cons kv rest ih =>
    obtain ⟨key, aValue⟩ := kv
    rw [ccmFirstPass_cons]
    simp only [List.map_cons, joinCat]
    rcases h : lookupJ key b with _ | bValue <;> simp [h, ih]

/-- C9 (amended): the rendering of two nested maps is a pure function of
the inputs and the maps' key-iteration orders — byte-for-byte it is the
concatenation, over the first map's iteration order, of one chunk per
key (and, on the actual side, the second pass over the second map's
order).  Determinism across runs therefore holds only relative to a
fixed iteration order; Go randomizes map range order, and the
counterexample shows two orders of the same map yield different bytes. -/
theorem claim_C9_compareAndColorizeMaps (a b : List (String × JVal)) (indent : String)
    (red green : String → String) :
    compareAndColorizeMaps a b indent red green =
      ("\x7b\n" ++ joinCat (a.map fun kv =>
          match lookupJ kv.1 b with
          | none => writeKeyValuePair (red kv.1) kv.2 (indent ++ "  ") (some red)
          | some bValue => (compare kv.1 kv.2 bValue (indent ++ "  ") red green).1)
        ++ indent ++ "\x7d",
       "\x7b\n" ++ joinCat (a.map fun kv =>
          match lookupJ kv.1 b with
          | none => ""
          | some bValue => (compare kv.1 kv.2 bValue (indent ++ "  ") red green).2)
        ++ ccmSecondPass b a indent green ++ indent ++ "\x7d") := by
  rw [compareAndColorizeMaps_eq]
  rw [ccmFirstPass_decomp]

/-- C9 counterexample: two iteration orders of the same Go map — the
association lists agree on every lookup — produce different output
bytes from `compareAndColorizeMaps`, so two invocations of the document
comparison are not guaranteed byte-identical outputs. -/
theorem claim_C9_counterexample :
    (∀ k : String, lookupJ k [("x", JVal.prim (.num "1")), ("y", JVal.prim (.num "2"))]
        = lookupJ k [("y", JVal.prim (.num "2")), ("x", JVal.prim (.num "1"))]) ∧
    compareAndColorizeMaps [("x", JVal.prim (.num "1")), ("y", JVal.prim (.num "2"))]
        [("x", JVal.prim (.num "9")), ("y", JVal.prim (.num "2"))] " " (ansi "31") (ansi "32")
      ≠ compareAndColorizeMaps [("y", JVal.prim (.num "2")), ("x", JVal.prim (.num "1"))]
        [("x", JVal.prim (.num "9")), ("y", JVal.prim (.num "2"))] " " (ansi "31") (ansi "32") := by
  constructor
  · intro k
    simp only [lookupJ]
    by_cases hx : "x" = k <;> by_cases hy : "y" = k
    · exact absurd (hx.trans hy.symm) (by decide)
    · simp [hx, hy]
    · simp [hx, hy]
    · simp [hx, hy]
  · decide

set_option maxRecDepth 10000 in
/-- C5 counterexample: documents `{"ts":{"a":1}}` and `{"ts":{"a":2}}`
with noise set `{"ts"}` — the noised key's removed/added pair has nested
object values, so the pairing pass colorizes it structurally before the
noise check can run, and the expected output contains an ANSI escape
despite the key being noised. -/
theorem claim_C5_counterexample :
    ((SprintJSONDiff (JVal.obj [("ts", JVal.obj [("a", JVal.prim (.num "1"))])])
        (JVal.obj [("ts", JVal.obj [("a", JVal.prim (.num "2"))])]) ["ts"]).2.1).data.any
      (fun c => c == '\x1b') = true := by
  decide

/-- With the nil paint function (a Go `nil` color attribute), every
character `breakWithColor`'s loop emits is an input character or an
inserted newline. -/
theorem bwcLoop_none_chars (ranges : List Range) :
    ∀ (l : List Char) (i lineLen : Nat) (c : Char),
      c ∈ (bwcLoop (fun _ => "") ranges l i lineLen).data → c ∈ l ∨ c = '\n' := by
  intro l
  induction l with
  | nil =>
    intro i lineLen c hc
    simp only [bwcLoop] at hc
    split at hc
    · simp only [show ("\n" : String).data = ['\n'] from rfl, List.mem_singleton] at hc
      exact Or.inr hc
    · simp [show ("" : String).data = [] from rfl] at hc
  | cons ch rest ih =>
    intro i lineLen c hc
    simp only [bwcLoop] at hc
    have hpc : ∀ d ∈ (if ranges.any (fun r =>
        decide (r.Start ≤ (i : Int)) && decide ((i : Int) < r.End)) then
          (fun (_ : String) => ("" : String)) (String.singleton ch)
        else String.singleton ch).data, d = ch := by
      intro d hd
      split at hd
      · simp [show ("" : String).data = [] from rfl] at hd
      · simp only [show ∀ x : Char, (String.singleton x).data = [x] from fun _ => rfl,
          List.mem_singleton] at hd
        exact hd
    split at hc
    · rw [String.data_append, String.data_append] at hc
      rcases List.mem_append.mp hc with h1 | h2
      · rcases List.mem_append.mp h1 with h3 | h4
        · exact Or.inl (by simp [hpc c h3])
        · simp only [show ("\n" : String).data = ['\n'] from rfl, List.mem_singleton] at h4
          exact Or.inr h4
      · rcases ih (i + 1) 0 c h2 with h | h
        · exact Or.inl (List.mem_cons_of_mem ch h)
        · exact Or.inr h
    · rw [String.data_append] at hc
      rcases List.mem_append.mp hc with h1 | h2
      · exact Or.inl (by simp [hpc c h1])
      · rcases ih (i + 1) (lineLen + 1) c h2 with h | h
        · exact Or.inl (List.mem_cons_of_mem ch h)
        · exact Or.inr h

/-- With a nil color and no highlight ranges, `breakWithColor` emits
only input characters and newlines. -/
theorem breakWithColor_none_chars (s : String) (c : Char)
    (hc : c ∈ (breakWithColor s none []).data) : c ∈ s.data ∨ c = '\n' := by
  exact bwcLoop_none_chars [] s.data 0 0 c hc

/-- The noise-scan invariant for a removed (`-`) line: once some noise
key matches, the scan has softened the line, put nothing on the actual
side, and only escape-free text on the expected side — and a later
matching key can only re-mark it, not emit again. -/
theorem noiseFold_minus_aux (line : String) (hminus : firstCharIs line '-' = true)
    (hnoesc : ∀ c ∈ line.data, c ≠ '\x1b') :
    ∀ (ns : List String) (acc : NoiseOut),
      ((acc.line = line ∧ acc.eAdd = "" ∧ acc.aAdd = "" ∧ acc.noised = false) ∨
        (acc.line = " " ++ strDrop 1 line ∧ (∀ c ∈ acc.eAdd.data, c ≠ '\x1b') ∧
          acc.aAdd = "" ∧ acc.noised = true)) →
      (acc.noised = true ∨ ∃ e ∈ ns, strContainsSub line e = true) →
      (ns.foldl noiseStep acc).aAdd = "" ∧
        (∀ c ∈ (ns.foldl noiseStep acc).eAdd.data, c ≠ '\x1b') ∧
        (ns.foldl noiseStep acc).noised = true := by
  have hdata : (" " ++ strDrop 1 line).data = ' ' :: (strDrop 1 line).data := by
    rw [String.data_append]
    rfl
  have hsoft : firstCharIs (" " ++ strDrop 1 line) '-' = false := by
    simp [firstCharIs, hdata]
  have hsoftp : firstCharIs (" " ++ strDrop 1 line) '+' = false := by
    simp [firstCharIs, hdata]
  have hlnesc : ∀ c ∈ (" " ++ strDrop 1 line).data, c ≠ '\x1b' := by
    intro c hcmem
    rw [hdata] at hcmem
    rcases List.mem_cons.mp hcmem with rfl | h2
    · decide
    · exact hnoesc c (List.mem_of_mem_drop h2)
  intro ns
  induction ns with
  | nil =>
    intro acc hP hfire
    rcases hP with ⟨h1, h2, h3, h4⟩ | ⟨h1, h2, h3, h4⟩
    · rcases hfire with hn | ⟨e, he, _⟩
      · rw [h4] at hn; cases hn
      · cases he
    · exact ⟨h3, h2, h4⟩
  | cons e ns ih =>
    intro acc hP hfire
    simp only [List.foldl_cons]
    by_cases hc : strContainsSub acc.line e = true
    · rcases hP with ⟨h1, h2, h3, h4⟩ | ⟨h1, h2, h3, h4⟩
      · have hstep : noiseStep acc e =
            ⟨" " ++ strDrop 1 acc.line,
              acc.eAdd ++ breakWithColor (" " ++ strDrop 1 acc.line) none [],
              acc.aAdd, true⟩ := by
          unfold noiseStep
          rw [if_pos hc, h1, hminus]
          simp [h1]
        rw [hstep]
        apply ih
        · refine Or.inr ⟨by rw [h1], ?_, by simpa using h3, rfl⟩
          intro c hcm
          simp only [h1, h2] at hcm
          rw [String.data_append] at hcm
          rcases List.mem_append.mp hcm with hx | hx
          · simp [show ("" : String).data = [] from rfl] at hx
          · rcases breakWithColor_none_chars _ c hx with h | h
            · exact hlnesc c h
            · subst h; decide
        · exact Or.inl rfl
      · have hstep : noiseStep acc e = ⟨acc.line, acc.eAdd, acc.aAdd, true⟩ := by
          unfold noiseStep
          rw [if_pos hc, h1, hsoft, hsoftp]
          simp
        rw [hstep]
        apply ih
        · exact Or.inr ⟨h1, h2, h3, rfl⟩
        · exact Or.inl rfl
    · have hstep : noiseStep acc e = acc := by
        unfold noiseStep
        rw [if_neg (by simpa using hc)]
      rw [hstep]
      refine ih _ hP ?_
      rcases hfire with hn | ⟨e2, he2, hc2⟩
      · exact Or.inl hn
      · rcases List.mem_cons.mp he2 with rfl | he3
        · rcases hP with ⟨h1, _, _, _⟩ | ⟨_, _, _, h4⟩
          · rw [h1] at hc; exact absurd hc2 hc
          · exact Or.inl h4
        · exact Or.inr ⟨e2, he3, hc2⟩

/-- The noise-scan invariant for an added (`+`) line, symmetric to the
removed case: nothing on the expected side, escape-free text on the
actual side. -/
theorem noiseFold_plus_aux (line : String) (hplus : firstCharIs line '+' = true)
    (hnotminus : firstCharIs line '-' = false)
    (hnoesc : ∀ c ∈ line.data, c ≠ '\x1b') :
    ∀ (ns : List String) (acc : NoiseOut),
      ((acc.line = line ∧ acc.eAdd = "" ∧ acc.aAdd = "" ∧ acc.noised = false) ∨
        (acc.line = " " ++ strDrop 1 line ∧ (∀ c ∈ acc.aAdd.data, c ≠ '\x1b') ∧
          acc.eAdd = "" ∧ acc.noised = true)) →
      (acc.noised = true ∨ ∃ e ∈ ns, strContainsSub line e = true) →
      (ns.foldl noiseStep acc).eAdd = "" ∧
        (∀ c ∈ (ns.foldl noiseStep acc).aAdd.data, c ≠ '\x1b') ∧
        (ns.foldl noiseStep acc).noised = true := by
  have hdata : (" " ++ strDrop 1 line).data = ' ' :: (strDrop 1 line).data := by
    rw [String.data_append]
    rfl
  have hsoft : firstCharIs (" " ++ strDrop 1 line) '-' = false := by
    simp [firstCharIs, hdata]
  have hsoftp : firstCharIs (" " ++ strDrop 1 line) '+' = false := by
    simp [firstCharIs, hdata]
  have hlnesc : ∀ c ∈ (" " ++ strDrop 1 line).data, c ≠ '\x1b' := by
    intro c hcmem
    rw [hdata] at hcmem
    rcases List.mem_cons.mp hcmem with rfl | h2
    · decide
    · exact hnoesc c (List.mem_of_mem_drop h2)
  intro ns
  induction ns with
  | nil =>
    intro acc hP hfire
    rcases hP with ⟨h1, h2, h3, h4⟩ | ⟨h1, h2, h3, h4⟩
    · rcases hfire with hn | ⟨e, he, _⟩
      · rw [h4] at hn; cases hn
      · cases he
    · exact ⟨h3, h2, h4⟩
  | cons e ns ih =>
    intro acc hP hfire
    simp only [List.foldl_cons]
    by_cases hc : strContainsSub acc.line e = true
    · rcases hP with ⟨h1, h2, h3, h4⟩ | ⟨h1, h2, h3, h4⟩
      · have hstep : noiseStep acc e =
            ⟨" " ++ strDrop 1 acc.line, acc.eAdd,
              acc.aAdd ++ breakWithColor (" " ++ strDrop 1 acc.line) none [],
              true⟩ := by
          unfold noiseStep
          rw [if_pos hc, h1, hplus, hnotminus]
          simp [h1]
        rw [hstep]
        apply ih
        · refine Or.inr ⟨by rw [h1], ?_, by simpa using h2, rfl⟩
          intro c hcm
          simp only [h1, h3] at hcm
          rw [String.data_append] at hcm
          rcases List.mem_append.mp hcm with hx | hx
          · simp [show ("" : String).data = [] from rfl] at hx
          · rcases breakWithColor_none_chars _ c hx with h | h
            · exact hlnesc c h
            · subst h; decide
        · exact Or.inl rfl
      · have hstep : noiseStep acc e = ⟨acc.line, acc.eAdd, acc.aAdd, true⟩ := by
          unfold noiseStep
          rw [if_pos hc, h1, hsoft, hsoftp]
          simp
        rw [hstep]
        apply ih
        · exact Or.inr ⟨h1, h2, h3, rfl⟩
        · exact Or.inl rfl
    · have hstep : noiseStep acc e = acc := by
        unfold noiseStep
        rw [if_neg (by simpa using hc)]
      rw [hstep]
      refine ih _ hP ?_
      rcases hfire with hn | ⟨e2, he2, hc2⟩
      · exact Or.inl hn
      · rcases List.mem_cons.mp he2 with rfl | he3
        · rcases hP with ⟨h1, _, _, _⟩ | ⟨_, _, _, h4⟩
          · rw [h1] at hc; exact absurd hc2 hc
          · exact Or.inl h4
        · exact Or.inr ⟨e2, he3, hc2⟩

/-- A line whose first character is `+` does not start with `-`. -/
theorem firstCharIs_plus_not_minus (s : String)
    (h : firstCharIs s '+' = true) : firstCharIs s '-' = false := by
  unfold firstCharIs at h ⊢
  match hd : s.data with
  | [] => rfl
  | d :: _ =>
    rw [hd] at h
    have : d = '+' := by simpa using h
    subst this
    rfl

/-- C5 (amended): in the literal-coloring pass of `separateAndColorize`,
a nonempty escape-free diff line that contains some noise key is emitted
as plain uncolored text on its respective side only: a removed (`-`)
line contributes nothing to the actual side and only escape-free text to
the expected side, and an added (`+`) line symmetrically.  (A
removed/added pair whose two values parse as nested objects never
reaches this pass — the pairing pass colorizes it structurally,
ignoring noise, as the counterexample shows.) -/
theorem claim_C5_phase2_noise (diffLines noise : List String) (i : Nat)
    (hne : strLen (diffLines.getD i "") > 0)
    (hnoesc : ∀ c ∈ (diffLines.getD i "").data, c ≠ '\x1b')
    (hnoise : ∃ e ∈ noise, strContainsSub (diffLines.getD i "") e = true) :
    (firstCharIs (diffLines.getD i "") '-' = true →
        (phase2Step diffLines noise i).2 = "" ∧
        ∀ c ∈ (phase2Step diffLines noise i).1.data, c ≠ '\x1b')
  ∧ (firstCharIs (diffLines.getD i "") '+' = true →
        (phase2Step diffLines noise i).1 = "" ∧
        ∀ c ∈ (phase2Step diffLines noise i).2.data, c ≠ '\x1b') := by
  constructor
  · intro hminus
    have hnf := noiseFold_minus_aux (diffLines.getD i "") hminus hnoesc noise
      ⟨diffLines.getD i "", "", "", false⟩ (Or.inl ⟨rfl, rfl, rfl, rfl⟩) (Or.inr hnoise)
    have hnoised : (noiseFold noise (diffLines.getD i "")).noised = true := hnf.2.2
    unfold phase2Step
    rw [if_pos hne]
    unfold noiseFold at hnoised hnf ⊢
    rw [if_pos hnoised]
    exact ⟨hnf.1, hnf.2.1⟩
  · intro hplus
    have hnotminus := firstCharIs_plus_not_minus _ hplus
    have hnf := noiseFold_plus_aux (diffLines.getD i "") hplus hnotminus hnoesc noise
      ⟨diffLines.getD i "", "", "", false⟩ (Or.inl ⟨rfl, rfl, rfl, rfl⟩) (Or.inr hnoise)
    have hnoised : (noiseFold noise (diffLines.getD i "")).noised = true := hnf.2.2
    unfold phase2Step
    rw [if_pos hne]
    unfold noiseFold at hnoised hnf ⊢
    rw [if_pos hnoised]
    exact ⟨hnf.1, hnf.2.1⟩

/-- Witness for `claim_C5_phase2_noise` at the concrete line
`- "ts": 1` with noise key `ts`. -/
theorem claim_C5_witness :
    (∃ e ∈ (["ts"] : List String),
        strContainsSub ((["- \"ts\": 1"] : List String).getD 0 "") e = true) ∧
    ((firstCharIs ((["- \"ts\": 1"] : List String).getD 0 "") '-' = true →
        (phase2Step ["- \"ts\": 1"] ["ts"] 0).2 = "" ∧
        ∀ c ∈ (phase2Step ["- \"ts\": 1"] ["ts"] 0).1.data, c ≠ '\x1b')
      ∧ (firstCharIs ((["- \"ts\": 1"] : List String).getD 0 "") '+' = true →
        (phase2Step ["- \"ts\": 1"] ["ts"] 0).1 = "" ∧
        ∀ c ∈ (phase2Step ["- \"ts\": 1"] ["ts"] 0).2.data, c ≠ '\x1b')) :=
  ⟨⟨"ts", by decide, by decide⟩,
   claim_C5_phase2_noise ["- \"ts\": 1"] ["ts"] 0 (by decide) (by decide)
     ⟨"ts", by decide, by decide⟩⟩

/-- Concatenation of all-empty pieces is empty. -/
theorem joinCat_all_empty {α : Type} (f : α → String) :
    ∀ (l : List α), (∀ x ∈ l, f x = "") → joinCat (l.map f) = "" := by
  intro l
  induction l with
  | nil => intro _; rfl
  | cons x xs ih =>
    intro h
    simp only [List.map_cons, joinCat]
    rw [h x (List.mem_cons_self x xs), ih fun z hz => h z (List.mem_cons_of_mem x hz)]
    rfl

/-- Prepending the empty string is the identity. -/
theorem empty_append_str (s : String) : "" ++ s = s := by
  apply String.ext
  rw [String.data_append]
  rfl

/-- The index loop of the slice comparison, decomposed positionally:
starting at index `i`, the two outputs are concatenations of one chunk
per offset `j` below the longer length, each chunk determined by the
elements at that offset alone. -/
theorem ccsAux_decomp (indent : String) (red green : String → String) :
    ∀ (a b : List JVal) (i : Nat),
      ccsAux a b i indent red green =
        (joinCat ((List.range (max a.length b.length)).map fun j =>
           match a.get? j, b.get? j with
           | some x, some y => (ccsHead x y (i + j) indent red green).1
           | some x, none =>
             indent ++ "[" ++ toString (i + j) ++ "]: " ++ red (serialize x) ++ "\n"
           | none, _ => ""),
         joinCat ((List.range (max a.length b.length)).map fun j =>
           match a.get? j, b.get? j with
           | some x, some y => (ccsHead x y (i + j) indent red green).2
           | none, some y =>
             indent ++ "[" ++ toString (i + j) ++ "]: " ++ green (serialize y) ++ "\n"
           | _, _ => "")) := by
  intro a
  induction a with
  | nil =>
    intro b
    induction b with
    | nil =>
      intro i
      rw [ccsAux_nil_nil]
      simp [joinCat]
    | cons y ys ihb =>
      intro i
      rw [ccsAux_nil_cons, ihb (i + 1)]
      have hone : joinCat ((List.range (max ([] : List JVal).length ys.length)).map fun j =>
          match ([] : List JVal).get? j, ys.get? j with
          | some x, some y2 => (ccsHead x y2 (i + 1 + j) indent red green).1
          | some x, none =>
            indent ++ "[" ++ toString (i + 1 + j) ++ "]: " ++ red (serialize x) ++ "\n"
          | none, _ => "") = "" := by
        apply joinCat_all_empty
        intro j _
        simp [List.get?_nil]
      rw [hone]
      have htwo : joinCat ((List.range (max ([] : List JVal).length (y :: ys).length)).map
          fun j =>
          match ([] : List JVal).get? j, (y :: ys).get? j with
          | some x, some y2 => (ccsHead x y2 (i + j) indent red green).1
          | some x, none =>
            indent ++ "[" ++ toString (i + j) ++ "]: " ++ red (serialize x) ++ "\n"
          | none, _ => "") = "" := by
        apply joinCat_all_empty
        intro j _
        simp [List.get?_nil]
      rw [htwo]
      refine Prod.ext rfl ?_
      show indent ++ "[" ++ toString i ++ "]: " ++ green (serialize y) ++ "\n" ++
          joinCat ((List.range (max ([] : List JVal).length ys.length)).map fun j =>
            match ([] : List JVal).get? j, ys.get? j with
            | some x, some y2 => (ccsHead x y2 (i + 1 + j) indent red green).2
            | none, some y2 =>
              indent ++ "[" ++ toString (i + 1 + j) ++ "]: " ++ green (serialize y2) ++ "\n"
            | _, _ => "") = _
      simp only [List.length_nil, List.length_cons, Nat.zero_max, List.range_succ_eq_map,
        List.map_cons, List.map_map, joinCat]
      simp only [List.get?_nil, List.get?_cons_zero, Nat.add_zero]
      congr 1
      refine congrArg joinCat (List.map_congr_left ?_)
      intro j _
      show (match ([] : List JVal).get? j, ys.get? j with
        | some x, some y2 => (ccsHead x y2 (i + 1 + j) indent red green).2
        | none, some y2 =>
          indent ++ "[" ++ toString (i + 1 + j) ++ "]: " ++ green (serialize y2) ++ "\n"
        | _, _ => "") =
        (match ([] : List JVal).get? (j + 1), (y :: ys).get? (j + 1) with
        | some x, some y2 => (ccsHead x y2 (i + (j + 1)) indent red green).2
        | none, some y2 =>
          indent ++ "[" ++ toString (i + (j + 1)) ++ "]: " ++ green (serialize y2) ++ "\n"
        | _, _ => "")
      rw [show i + (j + 1) = i + 1 + j from by omega]
      rcases hget : ys.get? j with _ | y2 <;>
        simp only [List.get?_eq_getElem?] at hget <;>
        simp [List.get?_nil, List.get?_cons_succ, hget]
  | cons x xs iha =>
    intro b i
    cases b with
    | nil =>
      rw [ccsAux_cons_nil, iha [] (i + 1)]
      have hone : joinCat ((List.range (max xs.length ([] : List JVal).length)).map fun j =>
          match xs.get? j, ([] : List JVal).get? j with
          | some x2, some y2 => (ccsHead x2 y2 (i + 1 + j) indent red green).2
          | none, some y2 =>
            indent ++ "[" ++ toString (i + 1 + j) ++ "]: " ++ green (serialize y2) ++ "\n"
          | _, _ => "") = "" := by
        apply joinCat_all_empty
        intro j _
        rcases hget : xs.get? j with _ | x2 <;> simp [List.get?_nil, hget]
      rw [hone]
      have htwo : joinCat ((List.range (max (x :: xs).length ([] : List JVal).length)).map
          fun j =>
          match (x :: xs).get? j, ([] : List JVal).get? j with
          | some x2, some y2 => (ccsHead x2 y2 (i + j) indent red green).2
          | none, some y2 =>
            indent ++ "[" ++ toString (i + j) ++ "]: " ++ green (serialize y2) ++ "\n"
          | _, _ => "") = "" := by
        apply joinCat_all_empty
        intro j _
        rcases hget : (x :: xs).get? j with _ | x2 <;> simp [List.get?_nil, hget]
      rw [htwo]
      refine Prod.ext ?_ rfl
      show indent ++ "[" ++ toString i ++ "]: " ++ red (serialize x) ++ "\n" ++
          joinCat ((List.range (max xs.length ([] : List JVal).length)).map fun j =>
            match xs.get? j, ([] : List JVal).get? j with
            | some x2, some y2 => (ccsHead x2 y2 (i + 1 + j) indent red green).1
            | some x2, none =>
              indent ++ "[" ++ toString (i + 1 + j) ++ "]: " ++ red (serialize x2) ++ "\n"
            | none, _ => "") = _
      simp only [List.length_nil, List.length_cons, Nat.max_zero, List.range_succ_eq_map,
        List.map_cons, List.map_map, joinCat]
      simp only [List.get?_nil, List.get?_cons_zero, Nat.add_zero]
      congr 1
      refine congrArg joinCat (List.map_congr_left ?_)
      intro j _
      show (match xs.get? j, ([] : List JVal).get? j with
        | some x2, some y2 => (ccsHead x2 y2 (i + 1 + j) indent red green).1
        | some x2, none =>
          indent ++ "[" ++ toString (i + 1 + j) ++ "]: " ++ red (serialize x2) ++ "\n"
        | none, _ => "") =
        (match (x :: xs).get? (j + 1), ([] : List JVal).get? (j + 1) with
        | some x2, some y2 => (ccsHead x2 y2 (i + (j + 1)) indent red green).1
        | some x2, none =>
          indent ++ "[" ++ toString (i + (j + 1)) ++ "]: " ++ red (serialize x2) ++ "\n"
        | none, _ => "")
      rw [show i + (j + 1) = i + 1 + j from by omega]
      rcases hget : xs.get? j with _ | x2 <;>
        simp only [List.get?_eq_getElem?] at hget <;>
        simp [List.get?_nil, List.get?_cons_succ, hget]
    | cons y ys =>
      rw [ccsAux_cons_cons, iha ys (i + 1)]
      refine Prod.ext ?_ ?_
      · show (ccsHead x y i indent red green).1 ++
            joinCat ((List.range (max xs.length ys.length)).map fun j =>
              match xs.get? j, ys.get? j with
              | some x2, some y2 => (ccsHead x2 y2 (i + 1 + j) indent red green).1
              | some x2, none =>
                indent ++ "[" ++ toString (i + 1 + j) ++ "]: " ++ red (serialize x2) ++ "\n"
              | none, _ => "") = _
        simp only [List.length_cons, Nat.succ_max_succ, List.range_succ_eq_map,
          List.map_cons, List.map_map, joinCat]
        simp only [List.get?_cons_zero, Nat.add_zero]
        congr 1
        refine congrArg joinCat (List.map_congr_left ?_)
        intro j _
        show (match xs.get? j, ys.get? j with
          | some x2, some y2 => (ccsHead x2 y2 (i + 1 + j) indent red green).1
          | some x2, none =>
            indent ++ "[" ++ toString (i + 1 + j) ++ "]: " ++ red (serialize x2) ++ "\n"
          | none, _ => "") =
          (match (x :: xs).get? (j + 1), (y :: ys).get? (j + 1) with
          | some x2, some y2 => (ccsHead x2 y2 (i + (j + 1)) indent red green).1
          | some x2, none =>
            indent ++ "[" ++ toString (i + (j + 1)) ++ "]: " ++ red (serialize x2) ++ "\n"
          | none, _ => "")
        rw [show i + (j + 1) = i + 1 + j from by omega]
        rcases hg1 : xs.get? j with _ | x2 <;> rcases hg2 : ys.get? j with _ | y2 <;>
          simp only [List.get?_eq_getElem?] at hg1 hg2 <;>
          simp [List.get?_cons_succ, hg1, hg2]
      · show (ccsHead x y i indent red green).2 ++
            joinCat ((List.range (max xs.length ys.length)).map fun j =>
              match xs.get? j, ys.get? j with
              | some x2, some y2 => (ccsHead x2 y2 (i + 1 + j) indent red green).2
              | none, some y2 =>
                indent ++ "[" ++ toString (i + 1 + j) ++ "]: " ++ green (serialize y2) ++ "\n"
              | _, _ => "") = _
        simp only [List.length_cons, Nat.succ_max_succ, List.range_succ_eq_map,
          List.map_cons, List.map_map, joinCat]
        simp only [List.get?_cons_zero, Nat.add_zero]
        congr 1
        refine congrArg joinCat (List.map_congr_left ?_)
        intro j _
        show (match xs.get? j, ys.get? j with
          | some x2, some y2 => (ccsHead x2 y2 (i + 1 + j) indent red green).2
          | none, some y2 =>
            indent ++ "[" ++ toString (i + 1 + j) ++ "]: " ++ green (serialize y2) ++ "\n"
          | _, _ => "") =
          (match (x :: xs).get? (j + 1), (y :: ys).get? (j + 1) with
          | some x2, some y2 => (ccsHead x2 y2 (i + (j + 1)) indent red green).2
          | none, some y2 =>
            indent ++ "[" ++ toString (i + (j + 1)) ++ "]: " ++ green (serialize y2) ++ "\n"
          | _, _ => "")
        rw [show i + (j + 1) = i + 1 + j from by omega]
        rcases hg1 : xs.get? j with _ | x2 <;> rcases hg2 : ys.get? j with _ | y2 <;>
          simp only [List.get?_eq_getElem?] at hg1 hg2 <;>
          simp [List.get?_cons_succ, hg1, hg2]

/-- C4: the recursive slice comparison is strictly positional up to
`max a.length b.length`: each index `j` contributes exactly one chunk per
side, determined by the elements at `j` alone — an index present only in
the first slice is emitted red on the expected side and contributes
nothing to the actual side, an index present only in the second is
emitted green on the actual side and contributes nothing to the expected
side, and an index present in both is emitted by `ccsHead`, the source's
type switch, which recurses into `compareAndColorizeMaps` when both are
objects and into `compareAndColorizeSlices` when both are arrays, and
otherwise renders colored literal text for differing types or differing
scalars. -/
theorem claim_C4_compareAndColorizeSlices (a b : List JVal) (indent : String)
    (red green : String → String) :
    compareAndColorizeSlices a b indent red green =
      (joinCat ((List.range (max a.length b.length)).map fun j =>
         match a.get? j, b.get? j with
         | some x, some y => (ccsHead x y j indent red green).1
         | some x, none =>
           indent ++ "[" ++ toString j ++ "]: " ++ red (serialize x) ++ "\n"
         | none, _ => ""),
       joinCat ((List.range (max a.length b.length)).map fun j =>
         match a.get? j, b.get? j with
         | some x, some y => (ccsHead x y j indent red green).2
         | none, some y =>
           indent ++ "[" ++ toString j ++ "]: " ++ green (serialize y) ++ "\n"
         | _, _ => "")) := by
  rw [compareAndColorizeSlices_eq, ccsAux_decomp]
  simp only [Nat.zero_add]

/-- Escape-scanner mode: whether, after reading the characters in the
given starting mode, the scan is inside an ANSI escape sequence — the
`inANSISequence` tracking of `breakLines` (`jsondiff.go:556-565`): a
sequence opens at an ESC and closes at the first following `m`. -/
def escMode : Bool → List Char → Bool
  | m, [] => m
  | m, c :: cs =>
    if m || c == '\x1b' then
      (if c == 'm' then escMode false cs else escMode true cs)
    else escMode false cs

/-- The characters left after deleting every ANSI escape sequence (each
run from an ESC to its closing `m`), scanning in the given mode. -/
def stripEsc : Bool → List Char → List Char
  | _, [] => []
  | m, c :: cs =>
    if m || c == '\x1b' then
      (if c == 'm' then stripEsc false cs else stripEsc true cs)
    else c :: stripEsc false cs

/-- Visible width of a line: characters left after deleting escape
sequences and control characters — exactly the characters `breakLines`
counts in `lineLength`. -/
def visibleLen (l : List Char) : Nat :=
  ((stripEsc false l).filter fun c => !isControlCharacter c).length

/-- Well-formedness of embedded ANSI color escapes: every sequence
opened by an ESC reaches its closing `m` before the end of the input
and contains no newline (true of every ANSI color sequence). -/
def wfEsc : Bool → List Char → Bool
  | m, [] => !m
  | m, c :: cs =>
    if m || c == '\x1b' then
      (if c == 'm' then wfEsc false cs
       else if c == '\n' then false
       else wfEsc true cs)
    else wfEsc false cs

/-- The scanner mode after an appended list composes. -/
theorem escMode_append : ∀ (a : List Char) (m : Bool) (b : List Char),
    escMode m (a ++ b) = escMode (escMode m a) b := by
  intro a
  induction a with
  | nil => intro m b; rfl
  | cons c cs ih =>
    intro m b
    by_cases h1 : (m || c == '\x1b') = true
    · by_cases h2 : (c == 'm') = true <;> simp [escMode, h1, h2, ih]
    · simp only [Bool.or_eq_true, not_or, Bool.not_eq_true] at h1
      simp [escMode, h1.1, h1.2, ih]

/-- Stripping distributes over append, threading the scanner mode. -/
theorem stripEsc_append : ∀ (a : List Char) (m : Bool) (b : List Char),
    stripEsc m (a ++ b) = stripEsc m a ++ stripEsc (escMode m a) b := by
  intro a
  induction a with
  | nil => intro m b; rfl
  | cons c cs ih =>
    intro m b
    by_cases h1 : (m || c == '\x1b') = true
    · by_cases h2 : (c == 'm') = true <;> simp [stripEsc, escMode, h1, h2, ih]
    · simp only [Bool.or_eq_true, not_or, Bool.not_eq_true] at h1
      simp [stripEsc, escMode, h1.1, h1.2, ih]

/-- Visible width adds over append when the left part closes its escapes. -/
theorem visibleLen_append (a b : List Char) (h : escMode false a = false) :
    visibleLen (a ++ b) = visibleLen a + visibleLen b := by
  simp [visibleLen, stripEsc_append, h, List.filter_append]

/-- Inside a sequence, stripping skips everything up to the closing `m`. -/
theorem stripEsc_true_skip : ∀ (mid : List Char), 'm' ∉ mid →
    ∀ (b : List Char), stripEsc true (mid ++ 'm' :: b) = stripEsc false b := by
  intro mid
  induction mid with
  | nil => intro _ b; simp [stripEsc]
  | cons c cs ih =>
    intro h b
    have hc : ¬((c == 'm') = true) := by
      simp only [beq_iff_eq]
      intro hcm
      exact h (hcm ▸ List.mem_cons_self c cs)
    simp only [List.cons_append, stripEsc, Bool.true_or, if_true, if_neg hc]
    exact ih (fun hm => h (List.mem_cons_of_mem c hm)) b

/-- Inside a sequence, the mode closes at the terminating `m`. -/
theorem escMode_true_skip : ∀ (mid : List Char), 'm' ∉ mid →
    ∀ (b : List Char), escMode true (mid ++ 'm' :: b) = escMode false b := by
  intro mid
  induction mid with
  | nil => intro _ b; simp [escMode]
  | cons c cs ih =>
    intro h b
    have hc : ¬((c == 'm') = true) := by
      simp only [beq_iff_eq]
      intro hcm
      exact h (hcm ▸ List.mem_cons_self c cs)
    simp only [List.cons_append, escMode, Bool.true_or, if_true, if_neg hc]
    exact ih (fun hm => h (List.mem_cons_of_mem c hm)) b

/-- The loop invariant of `breakLines`: every completed line and the
line under construction have visible width within the limit, contain
only complete escape sequences, and contain no newline; the running
width counter equals the current line's visible width; and the pending
escape buffer is a partial sequence exactly when the in-sequence flag
is set. -/
def BLInv (st : BLState) : Prop :=
  (∀ l ∈ st.out, visibleLen l ≤ MAX_LINE_LENGTH ∧ escMode false l = false ∧ '\n' ∉ l) ∧
  visibleLen st.cur = st.lineLen ∧
  st.lineLen ≤ MAX_LINE_LENGTH ∧
  escMode false st.cur = false ∧
  '\n' ∉ st.cur ∧
  (st.inSeq = true → (∃ mid, st.seqBuf = '\x1b' :: mid) ∧ 'm' ∉ st.seqBuf ∧ '\n' ∉ st.seqBuf) ∧
  (st.inSeq = false → st.seqBuf = [])

/-- The character loop of `breakLines` preserves its invariant, provided
the remaining input's escapes are well formed in the current mode. -/
theorem blFold_inv : ∀ (input : List Char) (st : BLState),
    BLInv st → wfEsc st.inSeq input = true →
    BLInv (input.foldl blStep st) := by
  intro input
  induction input with
  | nil => intro st h _; exact h
  | cons c cs ih =>
    intro st hinv hwf
    obtain ⟨hout, hvl, hll, hem, hnl, hseqT, hseqF⟩ := hinv
    rw [List.foldl_cons]
    by_cases h1 : (st.inSeq || c == '\x1b') = true
    · by_cases h2 : (c == 'm') = true
      · -- terminating `m`: flush the buffered sequence into the line
        have hc : c = 'm' := by simpa using h2
        have hs : st.inSeq = true := by
          cases hst : st.inSeq with
          | true => rfl
          | false =>
            rw [hst] at h1
            simp only [Bool.false_or, beq_iff_eq] at h1
            rw [hc] at h1
            exact absurd h1 (by decide)
        obtain ⟨⟨mid, hmid⟩, hm, hn⟩ := hseqT hs
        have hm' : 'm' ∉ mid := fun h => hm (hmid ▸ List.mem_cons_of_mem _ h)
        have hn' : '\n' ∉ mid := fun h => hn (hmid ▸ List.mem_cons_of_mem _ h)
        have hstep : blStep st c =
            ⟨st.out, st.cur ++ (st.seqBuf ++ [c]), false, [], st.lineLen⟩ := by
          simp [blStep, h1, h2]
        rw [hstep]
        have hchunk : st.seqBuf ++ [c] = '\x1b' :: (mid ++ 'm' :: []) := by
          rw [hmid, hc]; simp
        have hchunk_strip : stripEsc false (st.seqBuf ++ [c]) = [] := by
          rw [hchunk]
          rw [show stripEsc false ('\x1b' :: (mid ++ ['m'])) =
            stripEsc true (mid ++ ['m']) from rfl]
          exact stripEsc_true_skip mid hm' []
        have hchunk_mode : escMode false (st.seqBuf ++ [c]) = false := by
          rw [hchunk]
          rw [show escMode false ('\x1b' :: (mid ++ ['m'])) =
            escMode true (mid ++ ['m']) from rfl]
          exact escMode_true_skip mid hm' []
        have hwf' : wfEsc false cs = true := by
          rw [hs] at hwf
          simpa [wfEsc, h2] using hwf
        refine ih _ ⟨hout, ?_, hll, ?_, ?_, ?_, ?_⟩ hwf'
        · show visibleLen (st.cur ++ (st.seqBuf ++ [c])) = st.lineLen
          have hcv : visibleLen (st.seqBuf ++ [c]) = 0 := by
            simp [visibleLen, hchunk_strip]
          rw [visibleLen_append _ _ hem, hcv, Nat.add_zero, hvl]
        · show escMode false (st.cur ++ (st.seqBuf ++ [c])) = false
          rw [escMode_append, hem, hchunk_mode]
        · show '\n' ∉ st.cur ++ (st.seqBuf ++ [c])
          intro hmem
          rcases List.mem_append.mp hmem with h | h
          · exact hnl h
          · rcases List.mem_append.mp h with h | h
            · exact hn (hmid ▸ h)
            · rw [hc] at h; exact absurd (List.mem_singleton.mp h) (by decide)
        · intro hfalse; exact Bool.noConfusion hfalse
        · intro _; rfl
      · -- still inside a sequence: buffer the character
        have hcm : c ≠ 'm' := by simpa using h2
        have hstep : blStep st c =
            ⟨st.out, st.cur, true, st.seqBuf ++ [c], st.lineLen⟩ := by
          simp [blStep, h1, h2]
        rw [hstep]
        have hkey : (∃ mid, st.seqBuf ++ [c] = '\x1b' :: mid) ∧ c ≠ '\n' ∧
            'm' ∉ st.seqBuf ∧ '\n' ∉ st.seqBuf ∧ wfEsc true cs = true := by
          cases hst : st.inSeq with
          | true =>
            obtain ⟨⟨mid, hmid⟩, hm, hn⟩ := hseqT hst
            rw [hst] at hwf
            by_cases hcn : (c == '\n') = true
            · rw [show wfEsc true (c :: cs) = false by simp [wfEsc, h2, hcn]] at hwf
              exact absurd hwf (by decide)
            · refine ⟨⟨mid ++ [c], by rw [hmid]; simp⟩, by simpa using hcn, hm, hn, ?_⟩
              simpa [wfEsc, h2, hcn] using hwf
          | false =>
            have hbuf : st.seqBuf = [] := hseqF hst
            have hcesc : c = '\x1b' := by
              rw [hst] at h1; simpa using h1
            rw [hst] at hwf
            refine ⟨⟨[], by rw [hbuf, hcesc]; rfl⟩, by rw [hcesc]; decide,
              by rw [hbuf]; simp, by rw [hbuf]; simp, ?_⟩
            rw [hcesc] at hwf
            simpa [wfEsc] using hwf
        obtain ⟨hex, hcn, hm, hn, hwf'⟩ := hkey
        refine ih _ ⟨hout, hvl, hll, hem, hnl, ?_, ?_⟩ hwf'
        · intro _
          refine ⟨hex, ?_, ?_⟩
          · intro hmem
            rcases List.mem_append.mp hmem with h | h
            · exact hm h
            · exact hcm (List.mem_singleton.mp h).symm
          · intro hmem
            rcases List.mem_append.mp hmem with h | h
            · exact hn h
            · exact hcn (List.mem_singleton.mp h).symm
        · intro hfalse; exact Bool.noConfusion hfalse
    · -- outside any sequence
      have h1' := h1
      simp only [Bool.or_eq_true, not_or, Bool.not_eq_true] at h1'
      obtain ⟨hs, hcesc⟩ := h1'
      have hbuf : st.seqBuf = [] := hseqF hs
      have hwf' : wfEsc false cs = true := by
        rw [hs] at hwf
        simpa [wfEsc, hcesc] using hwf
      by_cases h3 : (isControlCharacter c && c != '\n') = true
      · -- control character other than newline: appended uncounted
        have hcn : c ≠ '\n' := by
          have := (Bool.and_eq_true _ _).mp h3
          simpa using this.2
        have hstep : blStep st c =
            ⟨st.out, st.cur ++ [c], st.inSeq, st.seqBuf, st.lineLen⟩ := by
          simp [blStep, h1, h3]
        rw [hstep]
        have hctl' : isControlCharacter c = true := ((Bool.and_eq_true _ _).mp h3).1
        refine ih _ ⟨hout, ?_, hll, ?_, ?_, hseqT, hseqF⟩ (by rw [hs]; exact hwf')
        · show visibleLen (st.cur ++ [c]) = st.lineLen
          have hcv : visibleLen [c] = 0 := by
            simp [visibleLen, stripEsc, hcesc, hctl']
          rw [visibleLen_append _ _ hem, hcv, Nat.add_zero, hvl]
        · show escMode false (st.cur ++ [c]) = false
          rw [escMode_append, hem]
          simp [escMode, hcesc]
        · show '\n' ∉ st.cur ++ [c]
          intro hmem
          rcases List.mem_append.mp hmem with h | h
          · exact hnl h
          · exact hcn (List.mem_singleton.mp h).symm
      · by_cases h4 : st.lineLen ≥ MAX_LINE_LENGTH
        · -- width exhausted: flush the line, dropping the character
          have hstep : blStep st c =
              ⟨st.out ++ [st.cur], [], st.inSeq, st.seqBuf, 0⟩ := by
            simp [blStep, h1, h3, h4]
          rw [hstep]
          refine ih _ ⟨?_, rfl, by simp [MAX_LINE_LENGTH], rfl, by simp, hseqT, hseqF⟩
            (by rw [hs]; exact hwf')
          intro l hl
          rcases List.mem_append.mp hl with h | h
          · exact hout l h
          · rw [List.mem_singleton.mp h]
            exact ⟨hvl ▸ hll, hem, hnl⟩
        · by_cases h5 : (c == '\n') = true
          · -- explicit newline: flush the line
            have hstep : blStep st c =
                ⟨st.out ++ [st.cur], [], st.inSeq, st.seqBuf, 0⟩ := by
              simp [blStep, h1, h3, h4, h5]
            rw [hstep]
            refine ih _ ⟨?_, rfl, by simp [MAX_LINE_LENGTH], rfl, by simp, hseqT, hseqF⟩
              (by rw [hs]; exact hwf')
            intro l hl
            rcases List.mem_append.mp hl with h | h
            · exact hout l h
            · rw [List.mem_singleton.mp h]
              exact ⟨hvl ▸ hll, hem, hnl⟩
          · -- ordinary visible character
            have hcn : c ≠ '\n' := by simpa using h5
            have hctl : isControlCharacter c = false := by
              cases hic : isControlCharacter c with
              | false => rfl
              | true =>
                exfalso
                apply h3
                simp [hic, bne_iff_ne, hcn]
            have hstep : blStep st c =
                ⟨st.out, st.cur ++ [c], st.inSeq, st.seqBuf, st.lineLen + 1⟩ := by
              simp [blStep, h1, h3, h4, h5]
            rw [hstep]
            refine ih _ ⟨hout, ?_, ?_, ?_, ?_, hseqT, hseqF⟩ (by rw [hs]; exact hwf')
            · show visibleLen (st.cur ++ [c]) = st.lineLen + 1
              have hcv : visibleLen [c] = 1 := by
                simp [visibleLen, stripEsc, hcesc, hctl]
              rw [visibleLen_append _ _ hem, hcv, hvl]
            · show st.lineLen + 1 ≤ MAX_LINE_LENGTH
              omega
            · show escMode false (st.cur ++ [c]) = false
              rw [escMode_append, hem]
              simp [escMode, hcesc]
            · show '\n' ∉ st.cur ++ [c]
              intro hmem
              rcases List.mem_append.mp hmem with h | h
              · exact hnl h
              · exact hcn (List.mem_singleton.mp h).symm

/-- Every line `breakLines` produces respects the width limit, contains
only complete escape sequences, and is newline-free. -/
theorem breakLinesList_inv (input : List Char) (h : wfEsc false input = true) :
    ∀ l ∈ breakLinesList input,
      visibleLen l ≤ MAX_LINE_LENGTH ∧ escMode false l = false ∧ '\n' ∉ l := by
  have hinv := blFold_inv input ⟨[], [], false, [], 0⟩
    ⟨by simp, rfl, by simp [MAX_LINE_LENGTH], rfl, by simp,
     fun hfalse => absurd hfalse (by decide), fun _ => rfl⟩ h
  obtain ⟨hout, hvl, hll, hem, hnl, _, _⟩ := hinv
  intro l hl
  simp only [breakLinesList] at hl
  rcases List.mem_append.mp hl with h | h
  · exact hout l h
  · rw [List.mem_singleton.mp h]
    exact ⟨hvl ▸ hll, hem, hnl⟩

/-- Splitting at a separator absent from the left part peels it off. -/
theorem splitCh_append_sep (sep : Char) : ∀ (a b : List Char),
    (∀ c ∈ a, c ≠ sep) → splitCh sep (a ++ sep :: b) = a :: splitCh sep b := by
  intro a
  induction a with
  | nil => intro b _; simp [splitCh]
  | cons c cs ih =>
    intro b h
    have hc : c ≠ sep := h c (List.mem_cons_self c cs)
    have hrest := ih b fun x hx => h x (List.mem_cons_of_mem c hx)
    simp [splitCh, hc, hrest]

/-- Splitting at newlines inverts joining, when the lines are newline-free. -/
theorem splitCh_joinNl : ∀ (ls : List (List Char)), ls ≠ [] →
    (∀ l ∈ ls, '\n' ∉ l) → splitCh '\n' (joinNl ls) = ls := by
  intro ls
  induction ls with
  | nil => intro h; exact absurd rfl h
  | cons l rest ih =>
    intro _ h
    cases rest with
    | nil =>
      show splitCh '\n' l = [l]
      exact splitCh_eq_single '\n' l fun c hc heq =>
        h l (List.mem_cons_self l []) (heq ▸ hc)
    | cons l2 rest2 =>
      show splitCh '\n' (l ++ '\n' :: joinNl (l2 :: rest2)) = _
      rw [splitCh_append_sep '\n' l _ fun c hc heq =>
        h l (List.mem_cons_self l _) (heq ▸ hc)]
      rw [ih (by simp) fun x hx => h x (List.mem_cons_of_mem l hx)]

/-- C6: on any input whose embedded ANSI color escapes are well formed
(every sequence reaches its closing `m` and contains no newline), every
physical line of the `breakLines` output has at most `MAX_LINE_LENGTH`
visible characters once escape sequences are stripped, and contains
only complete escape sequences — no sequence is split across a line
break. -/
theorem claim_C6_breakLines (input : String) (h : wfEsc false input.data = true) :
    ∀ l ∈ splitLines (breakLines input),
      visibleLen l.data ≤ MAX_LINE_LENGTH ∧ escMode false l.data = false := by
  have hmain := breakLinesList_inv input.data h
  have hnn : breakLinesList input.data ≠ [] := by
    intro hc
    simp [breakLinesList] at hc
  have hsplit : splitCh '\n' (joinNl (breakLinesList input.data)) =
      breakLinesList input.data :=
    splitCh_joinNl _ hnn fun l hl => (hmain l hl).2.2
  intro l hl
  simp only [splitLines, breakLines] at hl
  rw [hsplit] at hl
  obtain ⟨l0, hl0, rfl⟩ := List.mem_map.mp hl
  exact ⟨(hmain l0 hl0).1, (hmain l0 hl0).2.1⟩

/-- Concrete instance of the line-wrapping bound: a red-colored line
longer than the width limit. -/
theorem claim_C6_witness :
    wfEsc false (String.data ("\x1b[31mexpected value with quite many characters, wrapping beyond the limit\x1b[0m")) = true ∧
    ∀ l ∈ splitLines (breakLines "\x1b[31mexpected value with quite many characters, wrapping beyond the limit\x1b[0m"),
      visibleLen l.data ≤ MAX_LINE_LENGTH ∧ escMode false l.data = false :=
  ⟨by decide, claim_C6_breakLines _ (by decide)⟩

end JsonDiff
